import Mathlib

/-!
# Verification of the pharmacy claims analytics pipeline

Shallow embedding of the pipeline from `src/loader.py` and `src/processor.py`:
three record streams (pharmacies, claims, reverts) are joined, enriched and
aggregated into three reports (per-(npi, ndc) metrics, per-drug top-2 chain
recommendations, per-drug most-prescribed-quantity insights).

DataFrames are embedded as lists of records; the Float64 `price` and
`quantity` columns are modelled as exact rationals.  A polars `group_by` is
embedded as `groupBy` below (one entry per distinct key, carrying the sublist
of rows with that key); polars enumerates groups in an unspecified order, so
any theorem about the pipeline output must be (and is, see the determinism
theorem) insensitive to a permutation of the group entries.
-/

namespace HippoData

/-- A pharmacy directory record: one CSV row with columns `npi`, `chain`. -/
structure PharmacyRecord where
  npi : String
  chain : String
deriving DecidableEq, Repr

/-- A drug claim event (`load_events` with the claims schema). -/
structure ClaimRecord where
  id : String
  npi : String
  ndc : String
  price : ℚ
  quantity : ℚ
  timestamp : String
deriving DecidableEq, Repr

/-- A claim-revert event (`load_events` with the reverts schema). -/
structure RevertRecord where
  id : String
  claim_id : String
  timestamp : String
deriving DecidableEq, Repr

/-- A claim after `mark_reverted_claims` added the `is_reverted` column. -/
structure EnrichedClaim where
  id : String
  npi : String
  ndc : String
  price : ℚ
  quantity : ℚ
  timestamp : String
  is_reverted : Bool
deriving DecidableEq, Repr

/-! ## Grouping and sorting infrastructure -/

/-- Keep the first row for every key, dropping later rows with an
    already-seen key.  With `key = id` this is first-occurrence
    deduplication of a list; it models polars `.unique(subset=key)`
    applied to one file (on fully identical duplicate rows the choice of
    kept row is immaterial). -/
def dedupByKey {α κ : Type} [DecidableEq κ] (key : α → κ) : List α → List α
  | [] => []
  | a :: l => a :: (dedupByKey key l).filter (fun b => key b ≠ key a)

/-- `groupBy key l` has one entry per distinct key of `l` (in first
    occurrence order), carrying the sublist of elements with that key.
    Models a polars `group_by` (with `maintain_order=True` this is exactly
    the polars order; without it polars uses an unspecified order, which
    the determinism theorem handles by quantifying over permutations). -/
def groupBy {α κ : Type} [DecidableEq κ] (key : α → κ) (l : List α) :
    List (κ × List α) :=
  (dedupByKey id (l.map key)).map (fun k => (k, l.filter (fun a => key a = k)))

/-- `a` precedes `b` when its sort key is not larger; models a polars
    `sort` by a (composite) key column. -/
def keyLe {α κ : Type} [LinearOrder κ] (key : α → κ) (a b : α) : Prop :=
  key a ≤ key b

instance {α κ : Type} [LinearOrder κ] (key : α → κ) : DecidableRel (keyLe key) :=
  fun a b => inferInstanceAs (Decidable (key a ≤ key b))

instance {α κ : Type} [LinearOrder κ] (key : α → κ) : IsTotal α (keyLe key) :=
  ⟨fun a b => le_total (key a) (key b)⟩

instance {α κ : Type} [LinearOrder κ] (key : α → κ) : IsTrans α (keyLe key) :=
  ⟨fun _ _ _ h1 h2 => le_trans h1 h2⟩

/-- Sort ascending by `key` (models polars `.sort(...)`). -/
def sortByKey {α κ : Type} [LinearOrder κ] (key : α → κ) (l : List α) : List α :=
  l.insertionSort (keyLe key)

/-- Two-decimal rounding: polars `.round(2)`, over exact rationals
    (round to nearest; none of the claims settled here depends on the
    midpoint rule). -/
def round2 (q : ℚ) : ℚ := (round (q * 100) : ℚ) / 100

/-! ## `src/loader.py` -/

/-- `loader.load_pharmacies`: every CSV file is deduplicated by `npi`
    separately (`.unique(subset="npi")`), then the per-file frames are
    concatenated.  Each element of `files` is the parsed row list of one
    file. -/
def load_pharmacies (files : List (List PharmacyRecord)) : List PharmacyRecord :=
  (files.map (dedupByKey (fun p => p.npi))).flatten

/-- `loader.load_events` instantiated at the claims schema: per-file
    `.unique(subset="id")`, then concatenation. -/
def load_claims (files : List (List ClaimRecord)) : List ClaimRecord :=
  (files.map (dedupByKey (fun c => c.id))).flatten

/-- `loader.load_events` instantiated at the reverts schema. -/
def load_reverts (files : List (List RevertRecord)) : List RevertRecord :=
  (files.map (dedupByKey (fun r => r.id))).flatten

/-! ## `src/processor.py`: join and enrichment -/

/-- `processor.filter_to_pharmacy_dataset`: inner join of the claims frame
    with the `npi` column of the pharmacy frame.  Per polars join semantics
    a claim row is emitted once for each pharmacy row carrying its `npi`,
    so claims with an unknown `npi` are dropped (no error is raised; the
    dropped count is only logged). -/
def filter_to_pharmacy_dataset (df_claims : List ClaimRecord)
    (df_pharmacies : List PharmacyRecord) : List ClaimRecord :=
  df_claims.flatMap (fun c =>
    (df_pharmacies.filter (fun p => p.npi = c.npi)).map (fun _ => c))

/-- `processor.mark_reverted_claims`: adds the `is_reverted` column,
    `pl.col("id").is_in(df_reverts["claim_id"])`. -/
def mark_reverted_claims (df_claims : List ClaimRecord)
    (df_reverts : List RevertRecord) : List EnrichedClaim :=
  df_claims.map (fun c =>
    { id := c.id, npi := c.npi, ndc := c.ndc, price := c.price,
      quantity := c.quantity, timestamp := c.timestamp,
      is_reverted := df_reverts.any (fun r => r.claim_id = c.id) })

/-! ## `compute_npi_ndc_metrics` -/

/-- One row of `npi_metrics.json`. -/
structure MetricRow where
  npi : String
  ndc : String
  fills : Nat
  reverted : Nat
  avg_price : ℚ
  total_price : ℚ
deriving DecidableEq, Repr

/-- The `(npi, ndc)` grouping key of `compute_npi_ndc_metrics`. -/
def metricKey (c : EnrichedClaim) : String × String := (c.npi, c.ndc)

/-- The aggregation body of `compute_npi_ndc_metrics` for one group:
    `fills = pl.count()`, `reverted = sum(is_reverted)`, the price and
    quantity sums, `avg_price` with the `total_quantity > 0` guard
    (computed from the unrounded accumulators), and `total_price` rounded
    only in the final `select`. -/
def metricOfGroup (k : String × String) (g : List EnrichedClaim) : MetricRow :=
  let total_price := (g.map (fun c => c.price)).sum
  let total_quantity := (g.map (fun c => c.quantity)).sum
  { npi := k.1, ndc := k.2,
    fills := g.length,
    reverted := (g.filter (fun c => c.is_reverted)).length,
    avg_price := if 0 < total_quantity then round2 (total_price / total_quantity) else 0,
    total_price := round2 total_price }

/-- Sort key of the final `.sort(["npi", "ndc"])`: the pair of strings,
    lexicographically. -/
def metricSortKey (m : MetricRow) : Lex (String × String) := toLex (m.npi, m.ndc)

/-- `compute_npi_ndc_metrics` from an explicit list of groups (polars
    enumerates the groups of an unordered `group_by` in an unspecified
    order; the final sort is applied afterwards). -/
def metricsFromGroups
    (gs : List ((String × String) × List EnrichedClaim)) : List MetricRow :=
  sortByKey metricSortKey (gs.map (fun kg => metricOfGroup kg.1 kg.2))

/-- `processor.compute_npi_ndc_metrics` (writing the JSON file is
    presentation; the rows written are this list). -/
def compute_npi_ndc_metrics (df_claims : List EnrichedClaim) : List MetricRow :=
  metricsFromGroups (groupBy metricKey df_claims)

/-! ## `compute_chain_recommendations` -/

/-- One `{name, avg_price}` entry of a recommendation row.  `name` is the
    chain from the left join; `⊥` models the polars null of an unmatched
    claim (null sorts first in a polars ascending sort, as `⊥` does). -/
structure ChainEntry where
  name : WithBot String
  avg_price : ℚ
deriving DecidableEq, Repr

/-- One row of `chain_recommendations.json`. -/
structure DrugChainRec where
  ndc : String
  chain : List ChainEntry
deriving DecidableEq, Repr

/-- The left join `df_claims.join(df_pharmacies, on="npi", how="left")`:
    each claim paired with the `chain` of every matching pharmacy row, or
    with `⊥` (null) when none matches. -/
def joinWithChain (df_claims : List EnrichedClaim)
    (df_pharmacies : List PharmacyRecord) : List (EnrichedClaim × WithBot String) :=
  df_claims.flatMap (fun c =>
    if (df_pharmacies.filter (fun p => p.npi = c.npi)).isEmpty then [(c, ⊥)]
    else (df_pharmacies.filter (fun p => p.npi = c.npi)).map
      (fun p => (c, (p.chain : WithBot String))))

/-- One row of the intermediate `chain_agg` frame, after the rows with a
    null `avg_price` have been filtered out. -/
structure ChainAggRow where
  ndc : String
  chain : WithBot String
  avg_price : ℚ
deriving DecidableEq, Repr

/-- The `chain_agg` frame: group the joined claims by `(ndc, chain)`, sum
    price and quantity, set `avg_price = round(total_price/total_quantity, 2)`
    when `total_quantity > 0` and null otherwise, and keep only the rows
    whose `avg_price` is not null. -/
def chainAgg (df_claims : List EnrichedClaim)
    (df_pharmacies : List PharmacyRecord) : List ChainAggRow :=
  (groupBy (fun cc => (cc.1.ndc, cc.2)) (joinWithChain df_claims df_pharmacies)).filterMap
    (fun kg =>
      if 0 < (kg.2.map (fun cc => cc.1.quantity)).sum then
        some { ndc := kg.1.1, chain := kg.1.2,
               avg_price := round2 ((kg.2.map (fun cc => cc.1.price)).sum /
                 (kg.2.map (fun cc => cc.1.quantity)).sum) }
      else none)

/-- Sort key of `chain_agg.sort(["ndc", "avg_price", "chain"])`. -/
def chainAggSortKey (r : ChainAggRow) : Lex (String × Lex (ℚ × WithBot String)) :=
  toLex (r.ndc, toLex (r.avg_price, r.chain))

/-- The within-drug candidate order `(avg_price ascending, chain ascending)`. -/
def candidateSortKey (r : ChainAggRow) : Lex (ℚ × WithBot String) :=
  toLex (r.avg_price, r.chain)

/-- The tail of `compute_chain_recommendations` from an explicit `chain_agg`
    row list: sort by `(ndc, avg_price, chain)`, group by `ndc` preserving
    that order (`maintain_order=True`), keep the first two rows of each
    group (`head(2)`) as `{name, avg_price}` entries, and sort the output
    rows by `ndc`. -/
def chainRecsFromAgg (agg : List ChainAggRow) : List DrugChainRec :=
  sortByKey (fun d => d.ndc)
    ((groupBy (fun r => r.ndc) (sortByKey chainAggSortKey agg)).map
      (fun kg =>
        { ndc := kg.1,
          chain := (kg.2.take 2).map
            (fun r => { name := r.chain, avg_price := r.avg_price }) }))

/-- `processor.compute_chain_recommendations`. -/
def compute_chain_recommendations (df_claims : List EnrichedClaim)
    (df_pharmacies : List PharmacyRecord) : List DrugChainRec :=
  chainRecsFromAgg (chainAgg df_claims df_pharmacies)

/-! ## `compute_quantity_insights` -/

/-- One row of `quantity_insights.json`. -/
structure QuantityInsight where
  ndc : String
  most_prescribed_quantity : List ℚ
deriving DecidableEq, Repr

/-- One row of the intermediate `(ndc, quantity, count)` frame. -/
structure QtyCountRow where
  ndc : String
  quantity : ℚ
  count : Nat
deriving DecidableEq, Repr

/-- A `QtyCountRow` with the `mode_qty` column added by `map_groups`. -/
structure MarkedRow where
  ndc : String
  quantity : ℚ
  count : Nat
  mode_qty : Option ℚ
deriving DecidableEq, Repr

/-- `df_claims.group_by(["ndc", "quantity"]).agg(pl.count())`. -/
def qtyCounts (df_claims : List EnrichedClaim) : List QtyCountRow :=
  (groupBy (fun c => (c.ndc, c.quantity)) df_claims).map
    (fun kg => { ndc := kg.1.1, quantity := kg.1.2, count := kg.2.length })

/-- `pl.col("count").max()` over one group of count rows. -/
def groupMaxCount (rs : List QtyCountRow) : Nat :=
  (rs.map (fun r => r.count)).foldr max 0

/-- The `group_by("ndc").map_groups(...)` step: within each `ndc` group,
    `mode_qty = quantity` on the rows whose `count` equals the group
    maximum, null elsewhere. -/
def markModes (counts : List QtyCountRow) : List MarkedRow :=
  (groupBy (fun r => r.ndc) counts).flatMap (fun kg =>
    kg.2.map (fun r =>
      { ndc := r.ndc, quantity := r.quantity, count := r.count,
        mode_qty := if r.count = groupMaxCount kg.2 then some r.quantity
          else none }))

/-- The tail of `compute_quantity_insights` from an explicit marked-row
    list: regroup by `ndc`, aggregate `mode_qty.drop_nulls().sort()`, keep
    the rows with a nonempty list, and sort the rows by `ndc`. -/
def qtyInsightsFromMarked (marked : List MarkedRow) : List QuantityInsight :=
  sortByKey (fun t => t.ndc)
    (((groupBy (fun x => x.ndc) marked).map (fun kg =>
        { ndc := kg.1,
          most_prescribed_quantity :=
            sortByKey id (kg.2.filterMap (fun x => x.mode_qty)) })).filter
      (fun t => 0 < t.most_prescribed_quantity.length))

/-- `processor.compute_quantity_insights`. -/
def compute_quantity_insights (df_claims : List EnrichedClaim) : List QuantityInsight :=
  qtyInsightsFromMarked (markModes (qtyCounts df_claims))

/-- `processor.run_pharmacy_analytics`: filter, mark, then the three
    reports (each written to its own JSON artifact). -/
def run_pharmacy_analytics (df_claims : List ClaimRecord)
    (df_reverts : List RevertRecord) (df_pharmacies : List PharmacyRecord) :
    List MetricRow × List DrugChainRec × List QuantityInsight :=
  let enriched :=
    mark_reverted_claims (filter_to_pharmacy_dataset df_claims df_pharmacies) df_reverts
  (compute_npi_ndc_metrics enriched,
   compute_chain_recommendations enriched df_pharmacies,
   compute_quantity_insights enriched)

/-! ## Spec-side group accessors (used to state the claims) -/

/-- The enriched claims of the `(npi, ndc)` group. -/
def groupClaims (df : List EnrichedClaim) (npi ndc : String) : List EnrichedClaim :=
  df.filter (fun c => c.npi = npi ∧ c.ndc = ndc)

/-- Unrounded sum of `price` over the `(npi, ndc)` group. -/
def groupPriceSum (df : List EnrichedClaim) (npi ndc : String) : ℚ :=
  ((groupClaims df npi ndc).map (fun c => c.price)).sum

/-- Sum of `quantity` over the `(npi, ndc)` group. -/
def groupQuantitySum (df : List EnrichedClaim) (npi ndc : String) : ℚ :=
  ((groupClaims df npi ndc).map (fun c => c.quantity)).sum

/-- The joined rows of the `(ndc, chain)` group of the chain aggregation. -/
def chainGroupRows (df_claims : List EnrichedClaim)
    (df_pharmacies : List PharmacyRecord) (ndc : String) (ch : WithBot String) :
    List (EnrichedClaim × WithBot String) :=
  (joinWithChain df_claims df_pharmacies).filter
    (fun cc => cc.1.ndc = ndc ∧ cc.2 = ch)

/-- Sum of `price` over the `(ndc, chain)` group. -/
def chainGroupPriceSum (df_claims : List EnrichedClaim)
    (df_pharmacies : List PharmacyRecord) (ndc : String) (ch : WithBot String) : ℚ :=
  ((chainGroupRows df_claims df_pharmacies ndc ch).map (fun cc => cc.1.price)).sum

/-- Sum of `quantity` over the `(ndc, chain)` group. -/
def chainGroupQuantitySum (df_claims : List EnrichedClaim)
    (df_pharmacies : List PharmacyRecord) (ndc : String) (ch : WithBot String) : ℚ :=
  ((chainGroupRows df_claims df_pharmacies ndc ch).map (fun cc => cc.1.quantity)).sum

/-- The eligible chain candidates of one drug: the `chain_agg` rows with
    this `ndc`. -/
def chainCandidates (df_claims : List EnrichedClaim)
    (df_pharmacies : List PharmacyRecord) (ndc : String) : List ChainAggRow :=
  (chainAgg df_claims df_pharmacies).filter (fun r => r.ndc = ndc)

/-- Number of claims of drug `ndc` dispensing quantity `q`. -/
def countOf (df : List EnrichedClaim) (ndc : String) (q : ℚ) : Nat :=
  (df.filter (fun c => c.ndc = ndc ∧ c.quantity = q)).length

/-! ## Infrastructure lemmas: deduplication, grouping, sorting -/

theorem mem_of_mem_dedupByKey {α κ : Type} [DecidableEq κ] {key : α → κ}
    {l : List α} {a : α} (h : a ∈ dedupByKey key l) : a ∈ l := by
  induction l with
  | nil => simp [dedupByKey] at h
  | cons b t ih =>
    simp only [dedupByKey, List.mem_cons, List.mem_filter] at h
    rcases h with h | h
    · exact h ▸ List.mem_cons_self b t
    · exact List.mem_cons_of_mem b (ih h.1)

theorem mem_dedupByKey_id {κ : Type} [DecidableEq κ] {l : List κ} {k : κ} :
    k ∈ dedupByKey id l ↔ k ∈ l := by
  constructor
  · exact mem_of_mem_dedupByKey
  · intro h
    induction l with
    | nil => simp at h
    | cons b t ih =>
      simp only [dedupByKey, List.mem_cons, List.mem_filter]
      rcases List.mem_cons.mp h with rfl | h2
      · exact Or.inl rfl
      · by_cases hk : k = b
        · exact Or.inl hk
        · exact Or.inr ⟨ih h2, by simpa using hk⟩

theorem nodup_map_key_dedupByKey {α κ : Type} [DecidableEq κ] (key : α → κ)
    (l : List α) : ((dedupByKey key l).map key).Nodup := by
  induction l with
  | nil => simp [dedupByKey]
  | cons b t ih =>
    simp only [dedupByKey, List.map_cons, List.nodup_cons]
    refine ⟨?_, ?_⟩
    · intro hmem
      rcases List.mem_map.mp hmem with ⟨a, ha, hk⟩
      have h2 := (List.mem_filter.mp ha).2
      simp only [decide_eq_true_eq] at h2
      exact h2 hk
    · exact List.Nodup.sublist
        (List.Sublist.map key (List.filter_sublist (dedupByKey key t))) ih

theorem nodup_dedupByKey_id {κ : Type} [DecidableEq κ] (l : List κ) :
    (dedupByKey id l).Nodup := by
  have h := nodup_map_key_dedupByKey id l
  simpa using h

theorem mem_groupBy_iff {α κ : Type} [DecidableEq κ] {key : α → κ} {l : List α}
    {kg : κ × List α} :
    kg ∈ groupBy key l ↔
      kg.1 ∈ l.map key ∧ kg.2 = l.filter (fun a => key a = kg.1) := by
  unfold groupBy
  constructor
  · intro h
    rcases List.mem_map.mp h with ⟨k, hk, hkg⟩
    subst hkg
    exact ⟨mem_dedupByKey_id.mp hk, rfl⟩
  · intro ⟨h1, h2⟩
    refine List.mem_map.mpr ⟨kg.1, mem_dedupByKey_id.mpr h1, ?_⟩
    exact Prod.ext rfl h2.symm

theorem groupBy_keys {α κ : Type} [DecidableEq κ] (key : α → κ) (l : List α) :
    (groupBy key l).map Prod.fst = dedupByKey id (l.map key) := by
  unfold groupBy
  rw [List.map_map]
  exact List.map_id _

theorem groupBy_keys_nodup {α κ : Type} [DecidableEq κ] (key : α → κ)
    (l : List α) : ((groupBy key l).map Prod.fst).Nodup := by
  rw [groupBy_keys]
  exact nodup_dedupByKey_id _

theorem groupBy_snd_ne_nil {α κ : Type} [DecidableEq κ] {key : α → κ}
    {l : List α} {kg : κ × List α} (h : kg ∈ groupBy key l) : kg.2 ≠ [] := by
  rcases mem_groupBy_iff.mp h with ⟨h1, h2⟩
  rcases List.mem_map.mp h1 with ⟨a, ha, hk⟩
  intro hnil
  have hmem : a ∈ kg.2 := h2 ▸ List.mem_filter.mpr ⟨ha, by simp [hk]⟩
  simp [hnil] at hmem

theorem mem_of_mem_groupBy_snd {α κ : Type} [DecidableEq κ] {key : α → κ}
    {l : List α} {kg : κ × List α} {a : α} (h : kg ∈ groupBy key l)
    (ha : a ∈ kg.2) : a ∈ l ∧ key a = kg.1 := by
  rcases mem_groupBy_iff.mp h with ⟨_, h2⟩
  rw [h2] at ha
  have hm := List.mem_filter.mp ha
  exact ⟨hm.1, by simpa using hm.2⟩

theorem sortByKey_perm {α κ : Type} [LinearOrder κ] (key : α → κ) (l : List α) :
    (sortByKey key l).Perm l :=
  List.perm_insertionSort _ _

theorem sorted_sortByKey {α κ : Type} [LinearOrder κ] (key : α → κ)
    (l : List α) : List.Sorted (keyLe key) (sortByKey key l) :=
  List.sorted_insertionSort _ _

theorem mem_sortByKey {α κ : Type} [LinearOrder κ] {key : α → κ} {l : List α}
    {a : α} : a ∈ sortByKey key l ↔ a ∈ l :=
  (sortByKey_perm key l).mem_iff

/-- A sort by a key that is duplicate-free on the list is a canonical form:
    it does not depend on the order the rows arrive in. -/
theorem sortByKey_eq_of_perm {α κ : Type} [LinearOrder κ] {key : α → κ}
    {l1 l2 : List α} (h : l1.Perm l2) (hd : (l1.map key).Nodup) :
    sortByKey key l1 = sortByKey key l2 := by
  have hperm : (sortByKey key l1).Perm (sortByKey key l2) :=
    (sortByKey_perm key l1).trans (h.trans (sortByKey_perm key l2).symm)
  have hd1 : ((sortByKey key l1).map key).Nodup :=
    ((sortByKey_perm key l1).map key).nodup_iff.mpr hd
  have hd2 : ((sortByKey key l2).map key).Nodup :=
    ((hperm.map key).symm).nodup_iff.mpr hd1
  have hp1 : List.Pairwise (fun a b => key a < key b) (sortByKey key l1) :=
    List.Pairwise.imp (fun hab => lt_of_le_of_ne hab.1 hab.2)
      ((sorted_sortByKey key l1).and (List.pairwise_map.mp hd1))
  have hp2 : List.Pairwise (fun a b => key a < key b) (sortByKey key l2) :=
    List.Pairwise.imp (fun hab => lt_of_le_of_ne hab.1 hab.2)
      ((sorted_sortByKey key l2).and (List.pairwise_map.mp hd2))
  haveI : IsAntisymm α (fun a b => key a < key b) :=
    ⟨fun _ _ h1 h2 => absurd (lt_trans h1 h2) (lt_irrefl _)⟩
  exact List.eq_of_perm_of_sorted hperm hp1 hp2

instance {κ : Type} [LinearOrder κ] : IsAntisymm κ (keyLe (id : κ → κ)) :=
  ⟨fun _ _ h1 h2 => le_antisymm h1 h2⟩

/-- Sorting by an antisymmetric key (such as sorting a list of rationals by
    themselves) is canonical on permutation classes. -/
theorem sortByKey_eq_of_perm_of_antisymm {α κ : Type} [LinearOrder κ]
    {key : α → κ} [IsAntisymm α (keyLe key)] {l1 l2 : List α}
    (h : l1.Perm l2) : sortByKey key l1 = sortByKey key l2 :=
  List.eq_of_perm_of_sorted
    ((sortByKey_perm key l1).trans (h.trans (sortByKey_perm key l2).symm))
    (sorted_sortByKey key l1) (sorted_sortByKey key l2)

/-! ## Infrastructure lemmas: sums, lengths, maxima -/

theorem length_filter_split {α : Type} (p : α → Bool) (l : List α) :
    l.length = (l.filter p).length + (l.filter (fun a => !p a)).length := by
  induction l with
  | nil => simp
  | cons a t ih =>
    cases hpa : p a <;> simp [List.filter_cons, hpa, ih] <;> omega

theorem sum_map_filter_split {α : Type} (f : α → ℚ) (p : α → Bool) (l : List α) :
    (l.map f).sum =
      ((l.filter p).map f).sum + ((l.filter (fun a => !p a)).map f).sum := by
  induction l with
  | nil => simp
  | cons a t ih =>
    cases hpa : p a <;> simp [List.filter_cons, hpa, ih] <;> ring

theorem le_foldr_max {l : List Nat} {x : Nat} (h : x ∈ l) :
    x ≤ l.foldr max 0 := by
  induction l with
  | nil => simp at h
  | cons a t ih =>
    rcases List.mem_cons.mp h with rfl | h2
    · exact le_max_left _ _
    · exact le_trans (ih h2) (le_max_right _ _)

theorem foldr_max_mem {l : List Nat} (h : l ≠ []) : l.foldr max 0 ∈ l := by
  induction l with
  | nil => exact absurd rfl h
  | cons a t ih =>
    cases t with
    | nil => simp
    | cons b u =>
      rcases le_total ((b :: u).foldr max 0) a with hle | hle
      · simp only [List.foldr_cons] at *
        rw [max_eq_left hle]
        exact List.mem_cons_self _ _
      · simp only [List.foldr_cons] at *
        rw [max_eq_right hle]
        exact List.mem_cons_of_mem _ (ih (by simp))

/-! ## Example records for concrete witnesses -/

/-- Claim `c1`: pharmacy `n1`, drug `d1`, price 10, quantity 2. -/
def exClaimA : ClaimRecord :=
  { id := "c1", npi := "n1", ndc := "d1", price := 10, quantity := 2, timestamp := "t1" }

/-- A revert of claim `c1`. -/
def exRevert1 : RevertRecord := { id := "r1", claim_id := "c1", timestamp := "t2" }

/-- A second, distinct revert of the same claim `c1`. -/
def exRevert2 : RevertRecord := { id := "r2", claim_id := "c1", timestamp := "t3" }

/-! ## C5: join exclusivity -/

/-- C5: a claim appears in the output of `filter_to_pharmacy_dataset` iff its
    `npi` equals the `npi` of some record in the pharmacy collection; claims
    with no matching pharmacy are dropped (the function is total — there is
    no error path). -/
theorem join_exclusivity (df_claims : List ClaimRecord)
    (df_pharmacies : List PharmacyRecord) (c : ClaimRecord) :
    c ∈ filter_to_pharmacy_dataset df_claims df_pharmacies ↔
      c ∈ df_claims ∧ ∃ p ∈ df_pharmacies, p.npi = c.npi := by
  unfold filter_to_pharmacy_dataset
  simp only [List.mem_flatMap, List.mem_map, List.mem_filter, decide_eq_true_eq]
  constructor
  · rintro ⟨a, ha, p, ⟨hp, hnpi⟩, rfl⟩
    exact ⟨ha, p, hp, hnpi⟩
  · rintro ⟨hc, p, hp, hnpi⟩
    exact ⟨c, hc, p, ⟨hp, hnpi⟩, rfl⟩

/-! ## C6: revert marking -/

/-- C6: `mark_reverted_claims` produces exactly one enriched claim per input
    claim, all original fields unchanged, with `is_reverted = true` iff some
    revert record's `claim_id` equals the claim's `id` (a pure membership
    test); a revert record whose `claim_id` is already present among the
    remaining reverts has no effect (count does not matter). -/
theorem mark_reverted_correct (df_claims : List ClaimRecord)
    (df_reverts : List RevertRecord) :
    List.Forall₂ (fun (c : ClaimRecord) (e : EnrichedClaim) =>
        e.id = c.id ∧ e.npi = c.npi ∧ e.ndc = c.ndc ∧ e.price = c.price ∧
        e.quantity = c.quantity ∧ e.timestamp = c.timestamp ∧
        (e.is_reverted = true ↔ ∃ r ∈ df_reverts, r.claim_id = c.id))
      df_claims (mark_reverted_claims df_claims df_reverts) ∧
    ∀ (r : RevertRecord) (rs : List RevertRecord),
      (∃ r2 ∈ rs, r2.claim_id = r.claim_id) →
      mark_reverted_claims df_claims (r :: rs) =
        mark_reverted_claims df_claims rs := by
  constructor
  · induction df_claims with
    | nil => simp [mark_reverted_claims]
    | cons c t ih =>
      simp only [mark_reverted_claims, List.map_cons]
      refine List.forall₂_cons.mpr ⟨⟨rfl, rfl, rfl, rfl, rfl, rfl, ?_⟩, ih⟩
      simp [List.any_eq_true]
  · intro r rs hr
    unfold mark_reverted_claims
    apply List.map_congr_left
    intro c _
    have hany : ((r :: rs).any (fun r2 => r2.claim_id = c.id) : Bool)
        = rs.any (fun r2 => r2.claim_id = c.id) := by
      rcases hr with ⟨r2, hr2, heq⟩
      by_cases h : r.claim_id = c.id
      · have h2 : rs.any (fun r3 => r3.claim_id = c.id) = true :=
          List.any_eq_true.mpr ⟨r2, hr2, by simp [heq, h]⟩
        simp [List.any_cons, h, h2]
      · simp [List.any_cons, h]
    rw [hany]

/-- Witness for the C6 theorem: with two revert records of claim `c1`, the
    second record has no effect. -/
theorem mark_reverted_correct_witness :
    (∃ r2 ∈ [exRevert1], r2.claim_id = exRevert2.claim_id) ∧
    mark_reverted_claims [exClaimA] (exRevert2 :: [exRevert1]) =
      mark_reverted_claims [exClaimA] [exRevert1] :=
  ⟨by with_unfolding_all decide,
   (mark_reverted_correct [exClaimA] []).2 exRevert2 [exRevert1]
     (by with_unfolding_all decide)⟩

/-! ## Metrics helper lemmas -/

/-- Every metrics output row is the aggregation of its `(npi, ndc)` group. -/
theorem metrics_mem_form (df : List EnrichedClaim) :
    ∀ m ∈ compute_npi_ndc_metrics df,
      ∃ npi ndc, m = metricOfGroup (npi, ndc) (groupClaims df npi ndc) := by
  intro m hm
  have hm2 : m ∈ (groupBy metricKey df).map (fun kg => metricOfGroup kg.1 kg.2) :=
    mem_sortByKey.mp hm
  rcases List.mem_map.mp hm2 with ⟨kg, hkg, hme⟩
  rcases mem_groupBy_iff.mp hkg with ⟨_, hk2⟩
  refine ⟨kg.1.1, kg.1.2, ?_⟩
  rw [← hme, hk2]
  congr 1
  unfold groupClaims
  apply List.filter_congr
  intro x _
  simp [metricKey, Prod.ext_iff, decide_eq_decide]

/-- The `avg_price` policy of one metrics group. -/
theorem metricOfGroup_avg (k : String × String) (g : List EnrichedClaim) :
    (0 < (g.map (fun c => c.quantity)).sum →
      (metricOfGroup k g).avg_price =
        round2 ((g.map (fun c => c.price)).sum / (g.map (fun c => c.quantity)).sum)) ∧
    (¬ 0 < (g.map (fun c => c.quantity)).sum → (metricOfGroup k g).avg_price = 0) := by
  constructor <;> intro h <;> simp [metricOfGroup, h]

/-! ## C2: metrics conservation (corrected) -/

/-- A claim whose price is 0: its group has positive quantity yet zero
    average price. -/
def exClaimZeroPrice : EnrichedClaim :=
  { id := "c9", npi := "n9", ndc := "d9", price := 0, quantity := 1,
    timestamp := "t9", is_reverted := false }

/-- C2 counterexample: on the single zero-price claim, the output row has
    `avg_price = 0.0` although the group's `total_quantity` is `1 ≠ 0`, so
    the claimed equivalence `avg_price == 0.0 ↔ total_quantity == 0` is
    false as stated. -/
theorem metrics_avg_zero_iff_fails :
    ¬ (∀ m ∈ compute_npi_ndc_metrics [exClaimZeroPrice],
        (m.avg_price = 0 ↔ groupQuantitySum [exClaimZeroPrice] m.npi m.ndc = 0)) := by
  with_unfolding_all decide

/-- C2 (amended): for each `(npi, ndc)` group, `fills` counts the claims of
    the group, `reverted` counts its reverted claims (hence
    `reverted ≤ fills`), `total_price` is the rounded price sum,
    `avg_price = 0.0` if `total_quantity == 0` (only this direction holds:
    see the counterexample for the converse), and the output rows are sorted
    ascending by the string pair `(npi, ndc)`. -/
theorem metrics_conservation (df : List EnrichedClaim) :
    (∀ m ∈ compute_npi_ndc_metrics df,
      m.fills = (groupClaims df m.npi m.ndc).length ∧
      m.reverted =
        ((groupClaims df m.npi m.ndc).filter (fun c => c.is_reverted)).length ∧
      m.reverted ≤ m.fills ∧
      m.total_price = round2 (groupPriceSum df m.npi m.ndc) ∧
      (groupQuantitySum df m.npi m.ndc = 0 → m.avg_price = 0)) ∧
    List.Sorted (keyLe metricSortKey) (compute_npi_ndc_metrics df) := by
  constructor
  · intro m hm
    obtain ⟨npi, ndc, rfl⟩ := metrics_mem_form df m hm
    refine ⟨rfl, rfl, List.length_filter_le _ _, rfl, fun h0 => ?_⟩
    have h1 : groupQuantitySum df npi ndc = 0 := h0
    have hnot : ¬ 0 < groupQuantitySum df npi ndc := by
      rw [h1]
      exact lt_irrefl 0
    exact (metricOfGroup_avg (npi, ndc) (groupClaims df npi ndc)).2 hnot
  · exact sorted_sortByKey metricSortKey _

/-- A reverted enriched claim in group `(n1, d1)`. -/
def exEnrichedA : EnrichedClaim :=
  { id := "c1", npi := "n1", ndc := "d1", price := 10, quantity := 2,
    timestamp := "t1", is_reverted := true }

/-- A non-reverted enriched claim in the same group `(n1, d1)`. -/
def exEnrichedB : EnrichedClaim :=
  { id := "c2", npi := "n1", ndc := "d1", price := 4, quantity := 1,
    timestamp := "t2", is_reverted := false }

/-- The metrics row of the group `(n1, d1)` of `[exEnrichedA, exEnrichedB]`:
    2 fills, 1 reverted, `avg_price = round(14/3, 2) = 4.67`. -/
def exMetricRow : MetricRow :=
  { npi := "n1", ndc := "d1", fills := 2, reverted := 1,
    avg_price := 467 / 100, total_price := 14 }

/-- Witness for the C2 theorem at a concrete two-claim group. -/
theorem metrics_conservation_witness :
    exMetricRow ∈ compute_npi_ndc_metrics [exEnrichedA, exEnrichedB] ∧
    exMetricRow.fills =
      (groupClaims [exEnrichedA, exEnrichedB] exMetricRow.npi exMetricRow.ndc).length :=
  ⟨by with_unfolding_all decide,
   ((metrics_conservation [exEnrichedA, exEnrichedB]).1 exMetricRow
     (by with_unfolding_all decide)).1⟩

/-! ## C7: the average-price formula -/

/-- C7: for each `(npi, ndc)` group with positive quantity sum, `avg_price`
    is the 2-decimal rounding of the UNROUNDED price sum divided by the
    quantity sum (not of the already-rounded `total_price`); otherwise
    `avg_price` is `0.0`. -/
theorem metrics_avg_price_formula (df : List EnrichedClaim) :
    ∀ m ∈ compute_npi_ndc_metrics df,
      (0 < groupQuantitySum df m.npi m.ndc →
        m.avg_price =
          round2 (groupPriceSum df m.npi m.ndc / groupQuantitySum df m.npi m.ndc)) ∧
      (¬ 0 < groupQuantitySum df m.npi m.ndc → m.avg_price = 0) := by
  intro m hm
  obtain ⟨npi, ndc, rfl⟩ := metrics_mem_form df m hm
  exact metricOfGroup_avg (npi, ndc) (groupClaims df npi ndc)

/-- Witness for the C7 theorem: on the two-claim group the average is
    `round(14/3, 2) = 4.67`, computed from the unrounded sums. -/
theorem metrics_avg_price_formula_witness :
    exMetricRow ∈ compute_npi_ndc_metrics [exEnrichedA, exEnrichedB] ∧
    exMetricRow.avg_price =
      round2 (groupPriceSum [exEnrichedA, exEnrichedB] exMetricRow.npi exMetricRow.ndc /
        groupQuantitySum [exEnrichedA, exEnrichedB] exMetricRow.npi exMetricRow.ndc) :=
  ⟨by with_unfolding_all decide,
   ((metrics_avg_price_formula [exEnrichedA, exEnrichedB] exMetricRow
     (by with_unfolding_all decide)).1 (by with_unfolding_all decide))⟩

/-! ## C4: ingestion deduplication (corrected) -/

theorem dedupByKey_filter_comm {α κ : Type} [DecidableEq κ] (key : α → κ)
    (k : κ) (l : List α) :
    (dedupByKey key l).filter (fun b => key b ≠ k) =
      dedupByKey key (l.filter (fun b => key b ≠ k)) := by
  induction l with
  | nil => simp [dedupByKey]
  | cons x t ih =>
    by_cases hx : key x = k
    · subst hx
      calc (dedupByKey key (x :: t)).filter (fun b => key b ≠ key x)
          = ((dedupByKey key t).filter
              (fun b => key b ≠ key x)).filter (fun b => key b ≠ key x) := by
            rw [show dedupByKey key (x :: t) =
                x :: (dedupByKey key t).filter (fun b => key b ≠ key x) from rfl]
            apply List.filter_cons_of_neg
            simp
        _ = (dedupByKey key t).filter (fun b => key b ≠ key x) := by
            rw [List.filter_filter]
            apply List.filter_congr
            intro b _
            exact Bool.and_self _
        _ = dedupByKey key (t.filter (fun b => key b ≠ key x)) := ih
        _ = dedupByKey key ((x :: t).filter (fun b => key b ≠ key x)) := by
            congr 1
            symm
            apply List.filter_cons_of_neg
            simp
    · calc (dedupByKey key (x :: t)).filter (fun b => key b ≠ k)
          = x :: ((dedupByKey key t).filter
              (fun b => key b ≠ key x)).filter (fun b => key b ≠ k) := by
            rw [show dedupByKey key (x :: t) =
                x :: (dedupByKey key t).filter (fun b => key b ≠ key x) from rfl]
            apply List.filter_cons_of_pos
            simp [hx]
        _ = x :: ((dedupByKey key t).filter
              (fun b => key b ≠ k)).filter (fun b => key b ≠ key x) := by
            rw [List.filter_filter, List.filter_filter]
            congr 1
            apply List.filter_congr
            intro b _
            exact Bool.and_comm _ _
        _ = x :: (dedupByKey key
              (t.filter (fun b => key b ≠ k))).filter (fun b => key b ≠ key x) := by
            rw [ih]
        _ = dedupByKey key (x :: t.filter (fun b => key b ≠ k)) := rfl
        _ = dedupByKey key ((x :: t).filter (fun b => key b ≠ k)) := by
            congr 1
            symm
            apply List.filter_cons_of_pos
            simp [hx]

/-- Dropping a record whose key already occurred earlier in the same file
    does not change the per-file deduplication. -/
theorem dedupByKey_drop_dup {α κ : Type} [DecidableEq κ] (key : α → κ)
    (xs ys : List α) (a : α) (hb : ∃ b ∈ xs, key b = key a) :
    dedupByKey key (xs ++ a :: ys) = dedupByKey key (xs ++ ys) := by
  induction xs with
  | nil => simp at hb
  | cons x t ih =>
    by_cases hxa : key x = key a
    · simp only [List.cons_append, dedupByKey]
      congr 1
      rw [dedupByKey_filter_comm, dedupByKey_filter_comm]
      congr 1
      simp only [List.append_eq]
      rw [List.filter_append, List.filter_append, List.filter_cons]
      have hfa : (decide (key a ≠ key x)) = false := by simp [hxa]
      rw [hfa]
      simp
    · rcases hb with ⟨b, hbmem, hbkey⟩
      rcases List.mem_cons.mp hbmem with rfl | hbt
      · exact absurd hbkey hxa
      · simp only [List.cons_append, dedupByKey, List.append_eq]
        rw [ih ⟨b, hbt, hbkey⟩]

theorem load_claims_drop_within_file_dup (xs ys : List ClaimRecord)
    (a : ClaimRecord) (fs : List (List ClaimRecord))
    (hb : ∃ b ∈ xs, b.id = a.id) :
    load_claims ((xs ++ a :: ys) :: fs) = load_claims ((xs ++ ys) :: fs) := by
  unfold load_claims
  rw [List.map_cons, List.map_cons,
    dedupByKey_drop_dup (fun c => c.id) xs ys a hb]

theorem load_reverts_drop_within_file_dup (xs ys : List RevertRecord)
    (a : RevertRecord) (fs : List (List RevertRecord))
    (hb : ∃ b ∈ xs, b.id = a.id) :
    load_reverts ((xs ++ a :: ys) :: fs) = load_reverts ((xs ++ ys) :: fs) := by
  unfold load_reverts
  rw [List.map_cons, List.map_cons,
    dedupByKey_drop_dup (fun r => r.id) xs ys a hb]

theorem load_pharmacies_drop_within_file_dup (xs ys : List PharmacyRecord)
    (a : PharmacyRecord) (fs : List (List PharmacyRecord))
    (hb : ∃ b ∈ xs, b.npi = a.npi) :
    load_pharmacies ((xs ++ a :: ys) :: fs) = load_pharmacies ((xs ++ ys) :: fs) := by
  unfold load_pharmacies
  rw [List.map_cons, List.map_cons,
    dedupByKey_drop_dup (fun p => p.npi) xs ys a hb]

/-- The pharmacy of claim `c1` (`n1`, chain `A`). -/
def exPharmacyA : PharmacyRecord := { npi := "n1", chain := "A" }

/-- C4 counterexample: the loader deduplicates only within each file, so the
    same claim record appearing in two input files is loaded twice and
    double-counts (`fills = 2` where the deduplicated input gives 1); a
    pharmacy record duplicated across two files likewise double-counts every
    claim of that pharmacy through the inner join.  The aggregations on the
    duplicated input differ from those on the deduplicated input. -/
theorem dedup_across_files_double_counts :
    (compute_npi_ndc_metrics (mark_reverted_claims
        (filter_to_pharmacy_dataset (load_claims [[exClaimA], [exClaimA]])
          (load_pharmacies [[exPharmacyA]])) [])).map (fun m => m.fills) = [2] ∧
    (compute_npi_ndc_metrics (mark_reverted_claims
        (filter_to_pharmacy_dataset (load_claims [[exClaimA]])
          (load_pharmacies [[exPharmacyA]])) [])).map (fun m => m.fills) = [1] ∧
    (compute_npi_ndc_metrics (mark_reverted_claims
        (filter_to_pharmacy_dataset (load_claims [[exClaimA]])
          (load_pharmacies [[exPharmacyA], [exPharmacyA]])) [])).map
        (fun m => m.fills) = [2] ∧
    compute_npi_ndc_metrics (mark_reverted_claims
        (filter_to_pharmacy_dataset (load_claims [[exClaimA], [exClaimA]])
          (load_pharmacies [[exPharmacyA]])) []) ≠
      compute_npi_ndc_metrics (mark_reverted_claims
        (filter_to_pharmacy_dataset (load_claims [[exClaimA]])
          (load_pharmacies [[exPharmacyA]])) []) := by
  with_unfolding_all decide

/-- C4 (amended): a record whose key duplicates an earlier record of the
    SAME input file is dropped by the per-file deduplication and no
    aggregation changes; duplicates across different input files are not
    removed and do double-count (see the counterexample). -/
theorem dedup_within_file_no_double_count :
    (∀ (xs ys : List ClaimRecord) (a : ClaimRecord)
        (fs : List (List ClaimRecord)) (dfr : List RevertRecord)
        (dfp : List PharmacyRecord),
      (∃ b ∈ xs, b.id = a.id) →
      run_pharmacy_analytics (load_claims ((xs ++ a :: ys) :: fs)) dfr dfp =
        run_pharmacy_analytics (load_claims ((xs ++ ys) :: fs)) dfr dfp) ∧
    (∀ (xs ys : List RevertRecord) (a : RevertRecord)
        (fs : List (List RevertRecord)) (dfc : List ClaimRecord)
        (dfp : List PharmacyRecord),
      (∃ b ∈ xs, b.id = a.id) →
      run_pharmacy_analytics dfc (load_reverts ((xs ++ a :: ys) :: fs)) dfp =
        run_pharmacy_analytics dfc (load_reverts ((xs ++ ys) :: fs)) dfp) ∧
    (∀ (xs ys : List PharmacyRecord) (a : PharmacyRecord)
        (fs : List (List PharmacyRecord)) (dfc : List ClaimRecord)
        (dfr : List RevertRecord),
      (∃ b ∈ xs, b.npi = a.npi) →
      run_pharmacy_analytics dfc dfr (load_pharmacies ((xs ++ a :: ys) :: fs)) =
        run_pharmacy_analytics dfc dfr (load_pharmacies ((xs ++ ys) :: fs))) := by
  refine ⟨?_, ?_, ?_⟩
  · intro xs ys a fs dfr dfp hb
    rw [load_claims_drop_within_file_dup xs ys a fs hb]
  · intro xs ys a fs dfc dfp hb
    rw [load_reverts_drop_within_file_dup xs ys a fs hb]
  · intro xs ys a fs dfc dfr hb
    rw [load_pharmacies_drop_within_file_dup xs ys a fs hb]

/-- Witness for the C4 amended theorem: a within-file duplicate of claim
    `c1` does not change the pipeline output. -/
theorem dedup_within_file_no_double_count_witness :
    (∃ b ∈ [exClaimA], b.id = exClaimA.id) ∧
    run_pharmacy_analytics (load_claims [[exClaimA] ++ exClaimA :: []])
        [] [exPharmacyA] =
      run_pharmacy_analytics (load_claims [[exClaimA] ++ []]) [] [exPharmacyA] :=
  ⟨by with_unfolding_all decide,
   dedup_within_file_no_double_count.1 [exClaimA] [] exClaimA [] [] [exPharmacyA]
     (by with_unfolding_all decide)⟩

/-! ## Chain recommendation helper lemmas -/

/-- Two lists sorted by a key that is duplicate-free on them are equal as
    soon as they are permutations of each other. -/
theorem sorted_nodup_key_eq {α κ : Type} [LinearOrder κ] {key : α → κ}
    {l1 l2 : List α} (hperm : l1.Perm l2) (hs1 : List.Sorted (keyLe key) l1)
    (hs2 : List.Sorted (keyLe key) l2) (hn : (l1.map key).Nodup) : l1 = l2 := by
  have hn2 : (l2.map key).Nodup := (hperm.map key).nodup_iff.mp hn
  have hp1 : List.Pairwise (fun a b => key a < key b) l1 :=
    List.Pairwise.imp (fun hab => lt_of_le_of_ne hab.1 hab.2)
      (hs1.and (List.pairwise_map.mp hn))
  have hp2 : List.Pairwise (fun a b => key a < key b) l2 :=
    List.Pairwise.imp (fun hab => lt_of_le_of_ne hab.1 hab.2)
      (hs2.and (List.pairwise_map.mp hn2))
  haveI : IsAntisymm α (fun a b => key a < key b) :=
    ⟨fun _ _ h1 h2 => absurd (lt_trans h1 h2) (lt_irrefl _)⟩
  exact List.eq_of_perm_of_sorted hperm hp1 hp2

/-- `filterMap` of a function that returns at most one row per group key
    keeps the keys duplicate-free. -/
theorem nodup_map_filterMap {γ α κ : Type} {gs : List γ} {f : γ → Option α}
    {g : α → κ} {k0 : γ → κ} (hn : (gs.map k0).Nodup)
    (hf : ∀ x a, f x = some a → g a = k0 x) :
    ((gs.filterMap f).map g).Nodup := by
  induction gs with
  | nil => simp
  | cons x t ih =>
    rw [List.map_cons] at hn
    rcases List.nodup_cons.mp hn with ⟨hx, ht⟩
    rw [List.filterMap_cons]
    cases hfx : f x with
    | none => exact ih ht
    | some a =>
      rw [List.map_cons]
      refine List.nodup_cons.mpr ⟨?_, ih ht⟩
      intro hmem
      rcases List.mem_map.mp hmem with ⟨b, hbmem, hgb⟩
      rcases List.mem_filterMap.mp hbmem with ⟨y, hymem, hfy⟩
      have e1 : g a = k0 x := hf x a hfx
      have e2 : g b = k0 y := hf y b hfy
      have e3 : k0 y = k0 x := by rw [← e2, hgb, e1]
      exact hx (List.mem_map.mpr ⟨y, hymem, e3⟩)

/-- The `(ndc, chain)` pairs of the `chain_agg` rows are pairwise distinct. -/
theorem chainAgg_keys_nodup (dfc : List EnrichedClaim)
    (dfp : List PharmacyRecord) :
    ((chainAgg dfc dfp).map (fun r => (r.ndc, r.chain))).Nodup := by
  unfold chainAgg
  apply nodup_map_filterMap (groupBy_keys_nodup _ _)
  intro kg r hr
  by_cases htq : 0 < (kg.2.map (fun cc => cc.1.quantity)).sum
  · rw [if_pos htq] at hr
    cases Option.some.inj hr
    exact Prod.mk.eta
  · rw [if_neg htq] at hr
    exact absurd hr (by simp)

/-- Every `chain_agg` row carries a positive group quantity sum and the
    rounded average of the unrounded group sums. -/
theorem chainAgg_mem_form (dfc : List EnrichedClaim) (dfp : List PharmacyRecord) :
    ∀ r ∈ chainAgg dfc dfp,
      0 < chainGroupQuantitySum dfc dfp r.ndc r.chain ∧
      r.avg_price = round2 (chainGroupPriceSum dfc dfp r.ndc r.chain /
        chainGroupQuantitySum dfc dfp r.ndc r.chain) := by
  intro r hr
  unfold chainAgg at hr
  rcases List.mem_filterMap.mp hr with ⟨kg, hkg, hfkg⟩
  rcases mem_groupBy_iff.mp hkg with ⟨_, hk2⟩
  by_cases htq : 0 < (kg.2.map (fun cc => cc.1.quantity)).sum
  · rw [if_pos htq] at hfkg
    cases Option.some.inj hfkg
    have hrows : chainGroupRows dfc dfp kg.1.1 kg.1.2 = kg.2 := by
      rw [hk2]
      unfold chainGroupRows
      apply List.filter_congr
      intro x _
      simp [Prod.ext_iff, decide_eq_decide]
    constructor
    · show 0 < chainGroupQuantitySum dfc dfp kg.1.1 kg.1.2
      unfold chainGroupQuantitySum
      rw [hrows]
      exact htq
    · show round2 _ = round2 (chainGroupPriceSum dfc dfp kg.1.1 kg.1.2 /
        chainGroupQuantitySum dfc dfp kg.1.1 kg.1.2)
      unfold chainGroupPriceSum chainGroupQuantitySum
      rw [hrows]
  · rw [if_neg htq] at hfkg
    exact absurd hfkg (by simp)

/-- Restricting the `(ndc, avg_price, chain)`-sorted `chain_agg` rows to one
    drug yields that drug's candidates sorted by `(avg_price, chain)`. -/
theorem sorted_agg_filter (agg : List ChainAggRow)
    (hn : (agg.map (fun r => (r.ndc, r.chain))).Nodup) (n : String) :
    (sortByKey chainAggSortKey agg).filter (fun r => r.ndc = n) =
      sortByKey candidateSortKey (agg.filter (fun r => r.ndc = n)) := by
  have hperm : ((sortByKey chainAggSortKey agg).filter
      (fun r => r.ndc = n)).Perm
        (sortByKey candidateSortKey (agg.filter (fun r => r.ndc = n))) :=
    ((sortByKey_perm chainAggSortKey agg).filter _).trans
      (sortByKey_perm candidateSortKey _).symm
  have hs1 : List.Sorted (keyLe candidateSortKey)
      ((sortByKey chainAggSortKey agg).filter (fun r => r.ndc = n)) := by
    have hs0 : List.Sorted (keyLe chainAggSortKey)
        ((sortByKey chainAggSortKey agg).filter (fun r => r.ndc = n)) :=
      (sorted_sortByKey chainAggSortKey agg).filter _
    refine List.Pairwise.imp_of_mem ?_ hs0
    intro a b ha hb hab
    have hna : a.ndc = n := by simpa using (List.mem_filter.mp ha).2
    have hnb : b.ndc = n := by simpa using (List.mem_filter.mp hb).2
    unfold keyLe chainAggSortKey at hab
    unfold keyLe candidateSortKey
    rcases (Prod.Lex.le_iff _ _).mp hab with hlt | hc
    · rw [hna, hnb] at hlt
      exact absurd hlt (lt_irrefl n)
    · exact hc.2
  have hs2 : List.Sorted (keyLe candidateSortKey)
      (sortByKey candidateSortKey (agg.filter (fun r => r.ndc = n))) :=
    sorted_sortByKey candidateSortKey _
  have hnk : ((List.filter (fun r => decide (r.ndc = n))
      (sortByKey chainAggSortKey agg)).map candidateSortKey).Nodup := by
    have hpair0 : List.Pairwise
        (fun a b : ChainAggRow => (a.ndc, a.chain) ≠ (b.ndc, b.chain)) agg :=
      List.pairwise_map.mp hn
    have hpair1 : List.Pairwise
        (fun a b : ChainAggRow => (a.ndc, a.chain) ≠ (b.ndc, b.chain))
        (sortByKey chainAggSortKey agg) :=
      (List.Perm.pairwise_iff (fun {x y} h he => h he.symm)
        (sortByKey_perm chainAggSortKey agg)).mpr hpair0
    have hpair2 : List.Pairwise
        (fun a b : ChainAggRow => (a.ndc, a.chain) ≠ (b.ndc, b.chain))
        ((sortByKey chainAggSortKey agg).filter (fun r => r.ndc = n)) :=
      List.Pairwise.sublist (List.filter_sublist _) hpair1
    apply List.pairwise_map.mpr
    refine List.Pairwise.imp_of_mem ?_ hpair2
    intro a b ha hb hab hkey
    have hna : a.ndc = n := by simpa using (List.mem_filter.mp ha).2
    have hnb : b.ndc = n := by simpa using (List.mem_filter.mp hb).2
    apply hab
    have hch : a.chain = b.chain := by
      have h2 := toLex.injective hkey
      exact congrArg Prod.snd h2
    rw [hna, hnb, hch]
  exact sorted_nodup_key_eq hperm hs1 hs2 hnk

/-- The structure of the rows of `chainRecsFromAgg`: each row's `chain` list
    is the first two candidates of its drug sorted by `(avg_price, chain)`,
    each row has at least one candidate, and every drug that has a candidate
    gets a row. -/
theorem chainRecs_rows (agg : List ChainAggRow)
    (hn : (agg.map (fun r => (r.ndc, r.chain))).Nodup) :
    (∀ d ∈ chainRecsFromAgg agg,
      d.chain = ((sortByKey candidateSortKey
          (agg.filter (fun r => r.ndc = d.ndc))).take 2).map
        (fun r => { name := r.chain, avg_price := r.avg_price }) ∧
      agg.filter (fun r => r.ndc = d.ndc) ≠ []) ∧
    (∀ n, n ∈ agg.map (fun r => r.ndc) →
      ∃ d ∈ chainRecsFromAgg agg, d.ndc = n) := by
  constructor
  · intro d hd
    have hd2 : d ∈ (groupBy (fun r => r.ndc) (sortByKey chainAggSortKey agg)).map
        (fun kg =>
          ({ ndc := kg.1,
             chain := (kg.2.take 2).map
               (fun r => { name := r.chain, avg_price := r.avg_price }) } : DrugChainRec)) :=
      mem_sortByKey.mp hd
    rcases List.mem_map.mp hd2 with ⟨kg, hkg, hde⟩
    rcases mem_groupBy_iff.mp hkg with ⟨hk1, hk2⟩
    subst hde
    constructor
    · show ((kg.2.take 2).map _) =
        ((sortByKey candidateSortKey (agg.filter (fun r => r.ndc = kg.1))).take 2).map _
      rw [hk2, sorted_agg_filter agg hn]
    · show agg.filter (fun r => r.ndc = kg.1) ≠ []
      rcases List.mem_map.mp hk1 with ⟨row, hrmem, hrkey⟩
      intro hnil
      have hrow2 : row ∈ agg.filter (fun r => r.ndc = kg.1) :=
        List.mem_filter.mpr ⟨mem_sortByKey.mp hrmem, by simp [hrkey]⟩
      rw [hnil] at hrow2
      simp at hrow2
  · intro n hx
    rcases List.mem_map.mp hx with ⟨row, hrmem, hrkey⟩
    have hx2 : n ∈ (sortByKey chainAggSortKey agg).map (fun r => r.ndc) :=
      List.mem_map.mpr ⟨row, mem_sortByKey.mpr hrmem, hrkey⟩
    have hkg : (n, (sortByKey chainAggSortKey agg).filter (fun r => r.ndc = n)) ∈
        groupBy (fun r => r.ndc) (sortByKey chainAggSortKey agg) :=
      mem_groupBy_iff.mpr ⟨hx2, rfl⟩
    refine ⟨{ ndc := n,
              chain := (((sortByKey chainAggSortKey agg).filter
                  (fun r => r.ndc = n)).take 2).map
                (fun r => { name := r.chain, avg_price := r.avg_price }) },
      ?_, rfl⟩
    apply mem_sortByKey.mpr
    exact List.mem_map.mpr ⟨_, hkg, rfl⟩

/-! ## C1: top-2 chain selection -/

/-- C1: every emitted recommendation row lists exactly the first at-most-2
    candidates of its drug, sorted by `(avg_price ascending, chain name
    ascending)` — hence at most 2 entries, cheapest first, with the
    lexicographically smaller name first under an `avg_price` tie — and
    every drug with at least one eligible candidate gets a row. -/
theorem chain_top2_selection (dfc : List EnrichedClaim)
    (dfp : List PharmacyRecord) :
    (∀ d ∈ compute_chain_recommendations dfc dfp,
      d.chain = ((sortByKey candidateSortKey
          (chainCandidates dfc dfp d.ndc)).take 2).map
        (fun r => { name := r.chain, avg_price := r.avg_price }) ∧
      d.chain.length ≤ 2 ∧
      List.Sorted (keyLe (fun e : ChainEntry => toLex (e.avg_price, e.name)))
        d.chain) ∧
    (∀ n, chainCandidates dfc dfp n ≠ [] →
      ∃ d ∈ compute_chain_recommendations dfc dfp, d.ndc = n) := by
  unfold chainCandidates
  have hn := chainAgg_keys_nodup dfc dfp
  have hrows := chainRecs_rows (chainAgg dfc dfp) hn
  constructor
  · intro d hd
    have h1 := (hrows.1 d hd).1
    refine ⟨h1, ?_, ?_⟩
    · rw [h1, List.length_map, List.length_take]
      exact min_le_left _ _
    · rw [h1]
      apply List.pairwise_map.mpr
      have hsorted : List.Sorted (keyLe candidateSortKey)
          ((sortByKey candidateSortKey
            ((chainAgg dfc dfp).filter (fun r => r.ndc = d.ndc))).take 2) :=
        List.Pairwise.sublist (List.take_sublist _ _) (sorted_sortByKey _ _)
      exact hsorted
  · intro n hne
    rcases List.exists_mem_of_ne_nil _ hne with ⟨r, hr⟩
    have hr2 := List.mem_filter.mp hr
    exact hrows.2 n (List.mem_map.mpr ⟨r, hr2.1, by simpa using hr2.2⟩)

/-- The pharmacy `(n1, B)`. -/
def exPharmacyB : PharmacyRecord := { npi := "n1", chain := "B" }

/-- The pharmacy `(n2, A)`. -/
def exPharmacyA2 : PharmacyRecord := { npi := "n2", chain := "A" }

/-- A claim of drug `d1` at pharmacy `n1` (chain `B`), unit price 5. -/
def exEnrTie1 : EnrichedClaim :=
  { id := "c3", npi := "n1", ndc := "d1", price := 5, quantity := 1,
    timestamp := "t4", is_reverted := false }

/-- A claim of drug `d1` at pharmacy `n2` (chain `A`), unit price 5. -/
def exEnrTie2 : EnrichedClaim :=
  { id := "c4", npi := "n2", ndc := "d1", price := 5, quantity := 1,
    timestamp := "t5", is_reverted := false }

/-- The recommendation row of `d1` with chains `A` and `B` tied at price 5:
    the tie break puts `A` first. -/
def exRecTieRow : DrugChainRec :=
  { ndc := "d1",
    chain := [{ name := (("A" : String) : WithBot String), avg_price := 5 },
              { name := (("B" : String) : WithBot String), avg_price := 5 }] }

/-- Witness for the C1 theorem: two chains tied at `avg_price = 5` are
    listed with the lexicographically smaller name `A` first. -/
theorem chain_top2_selection_witness :
    exRecTieRow ∈
      compute_chain_recommendations [exEnrTie1, exEnrTie2]
        [exPharmacyB, exPharmacyA2] ∧
    exRecTieRow.chain.length ≤ 2 ∧
    chainCandidates [exEnrTie1, exEnrTie2] [exPharmacyB, exPharmacyA2] "d1" ≠ [] ∧
    ∃ d ∈ compute_chain_recommendations [exEnrTie1, exEnrTie2]
        [exPharmacyB, exPharmacyA2], d.ndc = "d1" :=
  ⟨by with_unfolding_all decide,
   ((chain_top2_selection [exEnrTie1, exEnrTie2]
       [exPharmacyB, exPharmacyA2]).1 exRecTieRow
     (by with_unfolding_all decide)).2.1,
   by with_unfolding_all decide,
   (chain_top2_selection [exEnrTie1, exEnrTie2] [exPharmacyB, exPharmacyA2]).2
     "d1" (by with_unfolding_all decide)⟩

/-! ## C8: the zero-quantity policy of the chain aggregation -/

/-- C8: an `(ndc, chain)` group whose quantity sum is 0 is dropped (its
    `avg_price` is null and the null filter removes it — no exception), so
    that chain never appears in the drug's recommendation list; every
    emitted row has at least one entry; and a drug with no eligible
    candidate gets no row. -/
theorem chain_zero_quantity_policy (dfc : List EnrichedClaim)
    (dfp : List PharmacyRecord) :
    (∀ (n : String) (ch : WithBot String),
      chainGroupQuantitySum dfc dfp n ch = 0 →
      ∀ d ∈ compute_chain_recommendations dfc dfp, ∀ e ∈ d.chain,
        d.ndc = n → e.name ≠ ch) ∧
    (∀ d ∈ compute_chain_recommendations dfc dfp, 1 ≤ d.chain.length) ∧
    (∀ n, chainCandidates dfc dfp n = [] →
      ∀ d ∈ compute_chain_recommendations dfc dfp, d.ndc ≠ n) := by
  unfold chainCandidates
  have hn := chainAgg_keys_nodup dfc dfp
  have hrows := chainRecs_rows (chainAgg dfc dfp) hn
  have hmem_entry : ∀ d ∈ compute_chain_recommendations dfc dfp,
      ∀ e ∈ d.chain,
      ∃ r ∈ chainAgg dfc dfp, r.ndc = d.ndc ∧ e.name = r.chain := by
    intro d hd e he
    have h1 := (hrows.1 d hd).1
    rw [h1] at he
    rcases List.mem_map.mp he with ⟨r, hrmem, hre⟩
    have hr2 : r ∈ (chainAgg dfc dfp).filter (fun r => r.ndc = d.ndc) :=
      mem_sortByKey.mp (List.take_subset _ _ hrmem)
    have hr3 := List.mem_filter.mp hr2
    exact ⟨r, hr3.1, by simpa using hr3.2, by rw [← hre]⟩
  refine ⟨?_, ?_, ?_⟩
  · intro n ch hq d hd e he hdn hech
    rcases hmem_entry d hd e he with ⟨r, hragg, hrndc, hrname⟩
    have hpos := (chainAgg_mem_form dfc dfp r hragg).1
    rw [hrndc, hdn, ← hrname, hech, hq] at hpos
    exact lt_irrefl 0 hpos
  · intro d hd
    have h1 := (hrows.1 d hd).1
    have h2 := (hrows.1 d hd).2
    have hlen : 0 < ((chainAgg dfc dfp).filter (fun r => r.ndc = d.ndc)).length :=
      List.length_pos.mpr h2
    have hslen : (sortByKey candidateSortKey
        ((chainAgg dfc dfp).filter (fun r => r.ndc = d.ndc))).length =
        ((chainAgg dfc dfp).filter (fun r => r.ndc = d.ndc)).length :=
      (sortByKey_perm _ _).length_eq
    rw [h1, List.length_map, List.length_take, hslen]
    omega
  · intro n hnil d hd hdn
    have h2 := (hrows.1 d hd).2
    rw [hdn] at h2
    exact h2 hnil

/-- A claim of drug `d1` with quantity 0 (its only `(d1, A)` group sums to
    quantity 0). -/
def exEnrZeroQty : EnrichedClaim :=
  { id := "c5", npi := "n1", ndc := "d1", price := 3, quantity := 0,
    timestamp := "t6", is_reverted := false }

/-- A claim of drug `d2` with positive quantity at the same pharmacy. -/
def exEnrD2 : EnrichedClaim :=
  { id := "c6", npi := "n1", ndc := "d2", price := 4, quantity := 2,
    timestamp := "t7", is_reverted := false }

/-- The only recommendation row of the C8 witness input: drug `d2`,
    chain `A`, average unit price 2. -/
def exRecD2Row : DrugChainRec :=
  { ndc := "d2",
    chain := [{ name := (("A" : String) : WithBot String), avg_price := 2 }] }

/-- Witness for the C8 theorem: the `(d1, A)` group sums to quantity 0 and
    `d1` gets no row and no entry, while the eligible `d2` row has one
    entry. -/
theorem chain_zero_quantity_policy_witness :
    (chainGroupQuantitySum [exEnrZeroQty, exEnrD2] [exPharmacyA] "d1"
        (("A" : String) : WithBot String) = 0 ∧
      ∀ d ∈ compute_chain_recommendations [exEnrZeroQty, exEnrD2] [exPharmacyA],
        ∀ e ∈ d.chain, d.ndc = "d1" → e.name ≠ (("A" : String) : WithBot String)) ∧
    (exRecD2Row ∈
        compute_chain_recommendations [exEnrZeroQty, exEnrD2] [exPharmacyA] ∧
      1 ≤ exRecD2Row.chain.length) ∧
    (chainCandidates [exEnrZeroQty, exEnrD2] [exPharmacyA] "d1" = [] ∧
      ∀ d ∈ compute_chain_recommendations [exEnrZeroQty, exEnrD2] [exPharmacyA],
        d.ndc ≠ "d1") :=
  ⟨⟨by with_unfolding_all decide,
    (chain_zero_quantity_policy [exEnrZeroQty, exEnrD2] [exPharmacyA]).1 "d1"
      (("A" : String) : WithBot String) (by with_unfolding_all decide)⟩,
   ⟨by with_unfolding_all decide,
    (chain_zero_quantity_policy [exEnrZeroQty, exEnrD2] [exPharmacyA]).2.1
      exRecD2Row (by with_unfolding_all decide)⟩,
   ⟨by with_unfolding_all decide,
    (chain_zero_quantity_policy [exEnrZeroQty, exEnrD2] [exPharmacyA]).2.2
      "d1" (by with_unfolding_all decide)⟩⟩

/-! ## Quantity insight helper lemmas -/

theorem countOf_pos_iff {df : List EnrichedClaim} {n : String} {q : ℚ} :
    0 < countOf df n q ↔ ∃ c ∈ df, c.ndc = n ∧ c.quantity = q := by
  unfold countOf
  rw [List.length_pos_iff_exists_mem]
  constructor
  · rintro ⟨c, hc⟩
    have h2 := List.mem_filter.mp hc
    exact ⟨c, h2.1, by simpa using h2.2⟩
  · rintro ⟨c, hc, h1, h2⟩
    exact ⟨c, List.mem_filter.mpr ⟨hc, by simp [h1, h2]⟩⟩

/-- Membership in the `(ndc, quantity, count)` frame: one row per occurring
    `(ndc, quantity)` pair, with `count = countOf`. -/
theorem qtyCounts_mem_iff {df : List EnrichedClaim} {r : QtyCountRow} :
    r ∈ qtyCounts df ↔
      (0 < countOf df r.ndc r.quantity ∧
        r.count = countOf df r.ndc r.quantity) := by
  unfold qtyCounts
  constructor
  · intro h
    rcases List.mem_map.mp h with ⟨kg, hkg, hre⟩
    rcases mem_groupBy_iff.mp hkg with ⟨hk1, hk2⟩
    rcases List.mem_map.mp hk1 with ⟨c, hc, hck⟩
    subst hre
    have hcount : kg.2.length = countOf df kg.1.1 kg.1.2 := by
      rw [hk2]
      unfold countOf
      congr 1
      apply List.filter_congr
      intro x _
      simp [Prod.ext_iff, decide_eq_decide]
    refine ⟨?_, hcount⟩
    show 0 < countOf df kg.1.1 kg.1.2
    exact countOf_pos_iff.mpr
      ⟨c, hc, congrArg Prod.fst hck, congrArg Prod.snd hck⟩
  · rintro ⟨hpos, hcnt⟩
    rcases r with ⟨rn, rq, rc⟩
    rcases countOf_pos_iff.mp hpos with ⟨c, hc, h1, h2⟩
    have hkey : ((rn, rq) : String × ℚ) ∈
        df.map (fun c => (c.ndc, c.quantity)) :=
      List.mem_map.mpr ⟨c, hc, Prod.ext h1 h2⟩
    have hkg : (((rn, rq) : String × ℚ),
        df.filter (fun c => (c.ndc, c.quantity) = ((rn, rq) : String × ℚ))) ∈
        groupBy (fun c => (c.ndc, c.quantity)) df :=
      mem_groupBy_iff.mpr ⟨hkey, rfl⟩
    apply List.mem_map.mpr
    refine ⟨_, hkg, ?_⟩
    have hlen : (df.filter
        (fun c => (c.ndc, c.quantity) = ((rn, rq) : String × ℚ))).length = rc := by
      have hco : (df.filter
          (fun c => (c.ndc, c.quantity) = ((rn, rq) : String × ℚ))).length =
          countOf df rn rq := by
        unfold countOf
        congr 1
        apply List.filter_congr
        intro x _
        simp [Prod.ext_iff, decide_eq_decide]
      rw [hco]
      exact hcnt.symm
    have hlen2 : (df.filter
        (fun c => decide (c.ndc = rn) && decide (c.quantity = rq))).length = rc := by
      rw [← hlen]
      congr 1
      apply List.filter_congr
      intro x _
      simp [Prod.ext_iff]
    simp [hlen2]

/-- Membership in the marked frame: each count row of drug `n`, tagged with
    `mode_qty` when its count attains the maximum of drug `n`. -/
theorem markModes_mem_iff {counts : List QtyCountRow} {x : MarkedRow} :
    x ∈ markModes counts ↔
      ∃ r ∈ counts,
        x = { ndc := r.ndc, quantity := r.quantity, count := r.count,
              mode_qty := if r.count =
                  groupMaxCount (counts.filter (fun r2 => r2.ndc = r.ndc))
                then some r.quantity else none } := by
  unfold markModes
  rw [List.mem_flatMap]
  constructor
  · rintro ⟨kg, hkg, hx⟩
    rcases List.mem_map.mp hx with ⟨r, hr, hxe⟩
    rcases mem_of_mem_groupBy_snd hkg hr with ⟨hrc, hrn⟩
    refine ⟨r, hrc, ?_⟩
    rw [← hxe]
    have hgrp : kg.2 = counts.filter (fun r2 => r2.ndc = r.ndc) := by
      rw [(mem_groupBy_iff.mp hkg).2]
      apply List.filter_congr
      intro y _
      simp [hrn]
    rw [hgrp]
  · rintro ⟨r, hrc, hxe⟩
    have hkey : r.ndc ∈ counts.map (fun r2 => r2.ndc) :=
      List.mem_map.mpr ⟨r, hrc, rfl⟩
    have hkg : (r.ndc, counts.filter (fun r2 => r2.ndc = r.ndc)) ∈
        groupBy (fun r2 => r2.ndc) counts :=
      mem_groupBy_iff.mpr ⟨hkey, rfl⟩
    refine ⟨_, hkg, ?_⟩
    apply List.mem_map.mpr
    refine ⟨r, List.mem_filter.mpr ⟨hrc, by simp⟩, hxe.symm⟩

/-- Any occurring per-quantity count of drug `n` is bounded by the group
    maximum of drug `n`. -/
theorem countOf_le_groupMax (df : List EnrichedClaim) (n : String) (p : ℚ)
    (hp : 0 < countOf df n p) :
    countOf df n p ≤ groupMaxCount ((qtyCounts df).filter (fun r => r.ndc = n)) := by
  have hrow : ({ ndc := n, quantity := p, count := countOf df n p } : QtyCountRow) ∈
      qtyCounts df := qtyCounts_mem_iff.mpr ⟨hp, rfl⟩
  have hrow2 : ({ ndc := n, quantity := p, count := countOf df n p } : QtyCountRow) ∈
      (qtyCounts df).filter (fun r => r.ndc = n) :=
    List.mem_filter.mpr ⟨hrow, by simp⟩
  exact le_foldr_max (List.mem_map.mpr ⟨_, hrow2, rfl⟩)

/-- When drug `n` has any claim, its group maximum is attained by some
    occurring quantity. -/
theorem groupMax_attained (df : List EnrichedClaim) (n : String)
    (hne : (qtyCounts df).filter (fun r => r.ndc = n) ≠ []) :
    ∃ p : ℚ, 0 < countOf df n p ∧
      countOf df n p = groupMaxCount ((qtyCounts df).filter (fun r => r.ndc = n)) := by
  have hmapne : (((qtyCounts df).filter (fun r => r.ndc = n)).map
      (fun r => r.count)) ≠ [] := by
    intro h
    exact hne (List.map_eq_nil_iff.mp h)
  have hmem := foldr_max_mem hmapne
  rcases List.mem_map.mp hmem with ⟨r0, hr0, hr0c⟩
  have hr0f := List.mem_filter.mp hr0
  have hr0n : r0.ndc = n := by simpa using hr0f.2
  rcases qtyCounts_mem_iff.mp hr0f.1 with ⟨hpos, hcnt⟩
  refine ⟨r0.quantity, ?_, ?_⟩
  · rw [← hr0n]
    exact hpos
  · calc countOf df n r0.quantity
        = countOf df r0.ndc r0.quantity := by rw [hr0n]
      _ = r0.count := hcnt.symm
      _ = groupMaxCount ((qtyCounts df).filter (fun r => r.ndc = n)) := hr0c

/-- The structure of the rows of `qtyInsightsFromMarked`: each row carries
    the sorted non-null `mode_qty` values of its drug, and every drug with a
    non-null `mode_qty` gets a row. -/
theorem qtyInsights_rows (marked : List MarkedRow) :
    (∀ t ∈ qtyInsightsFromMarked marked,
      t.most_prescribed_quantity =
        sortByKey id ((marked.filter (fun x => x.ndc = t.ndc)).filterMap
          (fun x => x.mode_qty))) ∧
    (∀ n : String,
      (marked.filter (fun x => x.ndc = n)).filterMap (fun x => x.mode_qty) ≠ [] →
      ∃ t ∈ qtyInsightsFromMarked marked, t.ndc = n) := by
  constructor
  · intro t ht
    have ht2 := mem_sortByKey.mp ht
    have ht3 := List.mem_filter.mp ht2
    rcases List.mem_map.mp ht3.1 with ⟨kg, hkg, hte⟩
    rcases mem_groupBy_iff.mp hkg with ⟨_, hk2⟩
    subst hte
    show sortByKey id (kg.2.filterMap (fun x => x.mode_qty)) =
      sortByKey id ((marked.filter (fun x => x.ndc = kg.1)).filterMap
        (fun x => x.mode_qty))
    rw [hk2]
  · intro n hne
    rcases List.exists_mem_of_ne_nil _ hne with ⟨q, hq⟩
    rcases List.mem_filterMap.mp hq with ⟨x, hx, _⟩
    have hx2 := List.mem_filter.mp hx
    have hxn : x.ndc = n := by simpa using hx2.2
    have hkey : n ∈ marked.map (fun x => x.ndc) :=
      List.mem_map.mpr ⟨x, hx2.1, hxn⟩
    have hkg : (n, marked.filter (fun x => x.ndc = n)) ∈
        groupBy (fun x => x.ndc) marked :=
      mem_groupBy_iff.mpr ⟨hkey, rfl⟩
    refine ⟨{ ndc := n,
              most_prescribed_quantity := sortByKey id
                ((marked.filter (fun x => x.ndc = n)).filterMap
                  (fun x => x.mode_qty)) },
      ?_, rfl⟩
    apply mem_sortByKey.mpr
    apply List.mem_filter.mpr
    refine ⟨List.mem_map.mpr ⟨_, hkg, rfl⟩, ?_⟩
    simp only [decide_eq_true_eq]
    show 0 < (sortByKey id ((marked.filter (fun x => x.ndc = n)).filterMap
      (fun x => x.mode_qty))).length
    rw [(sortByKey_perm id _).length_eq]
    exact List.length_pos.mpr hne

/-! ## C3: mode completeness of the quantity insights -/

/-- C3: each quantity-insight row lists exactly those quantities whose
    per-`(ndc, quantity)` claim count attains the drug's maximum count (all
    tied modes included, no quantity with a higher count excluded), sorted
    ascending; every drug with at least one claim gets a row; and the rows
    are sorted ascending by `ndc`. -/
theorem quantity_mode_completeness (df : List EnrichedClaim) :
    (∀ t ∈ compute_quantity_insights df,
      (∀ q : ℚ, q ∈ t.most_prescribed_quantity ↔
        (0 < countOf df t.ndc q ∧
          ∀ p : ℚ, countOf df t.ndc p ≤ countOf df t.ndc q)) ∧
      List.Sorted (· ≤ ·) t.most_prescribed_quantity) ∧
    (∀ c ∈ df, ∃ t ∈ compute_quantity_insights df, t.ndc = c.ndc) ∧
    List.Sorted (keyLe (fun t : QuantityInsight => t.ndc))
      (compute_quantity_insights df) := by
  have hrows := qtyInsights_rows (markModes (qtyCounts df))
  refine ⟨?_, ?_, sorted_sortByKey _ _⟩
  · intro t ht
    have hteq := hrows.1 t ht
    constructor
    · intro q
      rw [hteq, mem_sortByKey]
      constructor
      · intro hq
        rcases List.mem_filterMap.mp hq with ⟨x, hx, hxq⟩
        have hx2 := List.mem_filter.mp hx
        have hxn : x.ndc = t.ndc := by simpa using hx2.2
        rcases markModes_mem_iff.mp hx2.1 with ⟨r, hrc, hxe⟩
        subst hxe
        have hxn2 : r.ndc = t.ndc := hxn
        have hxq2 : (if r.count =
            groupMaxCount ((qtyCounts df).filter (fun r2 => r2.ndc = r.ndc))
          then some r.quantity else none) = some q := hxq
        by_cases hcm : r.count =
            groupMaxCount ((qtyCounts df).filter (fun r2 => r2.ndc = r.ndc))
        · rw [if_pos hcm] at hxq2
          have hq2 : r.quantity = q := Option.some.inj hxq2
          rcases qtyCounts_mem_iff.mp hrc with ⟨hpos, hcnt⟩
          constructor
          · rw [← hxn2, ← hq2]
            exact hpos
          · intro p
            rw [← hxn2, ← hq2, ← hcnt, hcm]
            by_cases hpp : 0 < countOf df r.ndc p
            · exact countOf_le_groupMax df r.ndc p hpp
            · omega
        · rw [if_neg hcm] at hxq2
          cases hxq2
      · rintro ⟨hpos, hub⟩
        have hrmem :
            ({ ndc := t.ndc, quantity := q, count := countOf df t.ndc q } : QtyCountRow) ∈
              qtyCounts df :=
          qtyCounts_mem_iff.mpr ⟨hpos, rfl⟩
        have hle : countOf df t.ndc q ≤
            groupMaxCount ((qtyCounts df).filter (fun r2 => r2.ndc = t.ndc)) :=
          countOf_le_groupMax df t.ndc q hpos
        have hne : (qtyCounts df).filter (fun r2 => r2.ndc = t.ndc) ≠ [] := by
          intro h0
          have hmem2 :
              ({ ndc := t.ndc, quantity := q, count := countOf df t.ndc q } : QtyCountRow) ∈
                (qtyCounts df).filter (fun r2 => r2.ndc = t.ndc) :=
            List.mem_filter.mpr ⟨hrmem, by simp⟩
          rw [h0] at hmem2
          simp at hmem2
        rcases groupMax_attained df t.ndc hne with ⟨p0, _, hp0eq⟩
        have hge : groupMaxCount
            ((qtyCounts df).filter (fun r2 => r2.ndc = t.ndc)) ≤
            countOf df t.ndc q := by
          rw [← hp0eq]
          exact hub p0
        have hM : countOf df t.ndc q =
            groupMaxCount ((qtyCounts df).filter (fun r2 => r2.ndc = t.ndc)) :=
          le_antisymm hle hge
        have hxmem :
            ({ ndc := t.ndc, quantity := q, count := countOf df t.ndc q, mode_qty := some q } : MarkedRow) ∈
              markModes (qtyCounts df) := by
          apply markModes_mem_iff.mpr
          refine ⟨_, hrmem, ?_⟩
          simp [hM]
        apply List.mem_filterMap.mpr
        exact ⟨_, List.mem_filter.mpr ⟨hxmem, by simp⟩, rfl⟩
    · rw [hteq]
      exact sorted_sortByKey id _
  · intro c hc
    have hpos : 0 < countOf df c.ndc c.quantity :=
      countOf_pos_iff.mpr ⟨c, hc, rfl, rfl⟩
    have hrmem :
        ({ ndc := c.ndc, quantity := c.quantity, count := countOf df c.ndc c.quantity } : QtyCountRow) ∈
          qtyCounts df :=
      qtyCounts_mem_iff.mpr ⟨hpos, rfl⟩
    have hne : (qtyCounts df).filter (fun r2 => r2.ndc = c.ndc) ≠ [] := by
      intro h0
      have hmem2 :
          ({ ndc := c.ndc, quantity := c.quantity, count := countOf df c.ndc c.quantity } : QtyCountRow) ∈
            (qtyCounts df).filter (fun r2 => r2.ndc = c.ndc) :=
        List.mem_filter.mpr ⟨hrmem, by simp⟩
      rw [h0] at hmem2
      simp at hmem2
    rcases groupMax_attained df c.ndc hne with ⟨p0, hp0pos, hp0eq⟩
    have hr0mem :
        ({ ndc := c.ndc, quantity := p0, count := countOf df c.ndc p0 } : QtyCountRow) ∈
          qtyCounts df :=
      qtyCounts_mem_iff.mpr ⟨hp0pos, rfl⟩
    have hxmem :
        ({ ndc := c.ndc, quantity := p0, count := countOf df c.ndc p0, mode_qty := some p0 } : MarkedRow) ∈
          markModes (qtyCounts df) := by
      apply markModes_mem_iff.mpr
      refine ⟨_, hr0mem, ?_⟩
      simp [hp0eq]
    have hfm : ((markModes (qtyCounts df)).filter
        (fun x => x.ndc = c.ndc)).filterMap (fun x => x.mode_qty) ≠ [] := by
      intro h0
      have hp0m : p0 ∈ ((markModes (qtyCounts df)).filter
          (fun x => x.ndc = c.ndc)).filterMap (fun x => x.mode_qty) :=
        List.mem_filterMap.mpr ⟨_, List.mem_filter.mpr ⟨hxmem, by simp⟩, rfl⟩
      rw [h0] at hp0m
      simp at hp0m
    exact hrows.2 c.ndc hfm

/-- A claim of drug `d1` with quantity 5. -/
def exQtyClaim1 : EnrichedClaim :=
  { id := "q1", npi := "n1", ndc := "d1", price := 1, quantity := 5,
    timestamp := "t1", is_reverted := false }

/-- A second claim of drug `d1` with quantity 5. -/
def exQtyClaim2 : EnrichedClaim :=
  { id := "q2", npi := "n1", ndc := "d1", price := 2, quantity := 5,
    timestamp := "t2", is_reverted := false }

/-- A claim of drug `d1` with quantity 7 (count 1, not a mode). -/
def exQtyClaim3 : EnrichedClaim :=
  { id := "q3", npi := "n2", ndc := "d1", price := 3, quantity := 7,
    timestamp := "t3", is_reverted := false }

/-- The quantity-insight row of `d1`: quantity 5 occurs twice, 7 once. -/
def exQtyRow : QuantityInsight :=
  { ndc := "d1", most_prescribed_quantity := [5] }

/-- Witness for the C3 theorem: on three `d1` claims with quantities
    5, 5, 7 the insight row is `[5]`, and 5 has the maximal count. -/
theorem quantity_mode_completeness_witness :
    exQtyRow ∈ compute_quantity_insights [exQtyClaim1, exQtyClaim2, exQtyClaim3] ∧
    (0 < countOf [exQtyClaim1, exQtyClaim2, exQtyClaim3] "d1" 5 ∧
      ∀ p : ℚ, countOf [exQtyClaim1, exQtyClaim2, exQtyClaim3] "d1" p ≤
        countOf [exQtyClaim1, exQtyClaim2, exQtyClaim3] "d1" 5) ∧
    (∃ t ∈ compute_quantity_insights [exQtyClaim1, exQtyClaim2, exQtyClaim3],
      t.ndc = "d1") :=
  ⟨by with_unfolding_all decide,
   (((quantity_mode_completeness
       [exQtyClaim1, exQtyClaim2, exQtyClaim3]).1 exQtyRow
     (by with_unfolding_all decide)).1 5).mp (by with_unfolding_all decide),
   (quantity_mode_completeness [exQtyClaim1, exQtyClaim2, exQtyClaim3]).2.1
     exQtyClaim1 (by with_unfolding_all decide)⟩

/-! ## C10: reverted claims are excluded from no aggregation -/

/-- C10: a reverted enriched claim still counts everywhere: per
    `(npi, ndc)` group, `fills` and `total_price` are the sums of the
    reverted and the non-reverted contributions; per `(ndc, chain)` group
    the price and quantity sums split the same way; and each
    `(ndc, quantity)` claim count is the sum of its reverted and
    non-reverted claim counts. -/
theorem reverted_claims_still_count (df : List EnrichedClaim)
    (dfp : List PharmacyRecord) :
    (∀ m ∈ compute_npi_ndc_metrics df,
      m.fills =
        ((groupClaims df m.npi m.ndc).filter (fun c => c.is_reverted)).length +
        ((groupClaims df m.npi m.ndc).filter (fun c => !c.is_reverted)).length ∧
      m.total_price = round2
        ((((groupClaims df m.npi m.ndc).filter
            (fun c => c.is_reverted)).map (fun c => c.price)).sum +
         (((groupClaims df m.npi m.ndc).filter
            (fun c => !c.is_reverted)).map (fun c => c.price)).sum)) ∧
    (∀ (n : String) (ch : WithBot String),
      chainGroupQuantitySum df dfp n ch =
        (((chainGroupRows df dfp n ch).filter
            (fun cc => cc.1.is_reverted)).map (fun cc => cc.1.quantity)).sum +
        (((chainGroupRows df dfp n ch).filter
            (fun cc => !cc.1.is_reverted)).map (fun cc => cc.1.quantity)).sum ∧
      chainGroupPriceSum df dfp n ch =
        (((chainGroupRows df dfp n ch).filter
            (fun cc => cc.1.is_reverted)).map (fun cc => cc.1.price)).sum +
        (((chainGroupRows df dfp n ch).filter
            (fun cc => !cc.1.is_reverted)).map (fun cc => cc.1.price)).sum) ∧
    (∀ (n : String) (q : ℚ),
      countOf df n q = countOf (df.filter (fun c => c.is_reverted)) n q +
        countOf (df.filter (fun c => !c.is_reverted)) n q) := by
  refine ⟨?_, ?_, ?_⟩
  · intro m hm
    obtain ⟨npi, ndc, rfl⟩ := metrics_mem_form df m hm
    constructor
    · show (groupClaims df npi ndc).length = _
      exact length_filter_split _ _
    · show round2 (((groupClaims df npi ndc).map (fun c => c.price)).sum) = _
      rw [sum_map_filter_split (fun c => c.price) (fun c => c.is_reverted)
        (groupClaims df npi ndc)]
      rfl
  · intro n ch
    constructor
    · exact sum_map_filter_split (fun cc => cc.1.quantity)
        (fun cc => cc.1.is_reverted) (chainGroupRows df dfp n ch)
    · exact sum_map_filter_split (fun cc => cc.1.price)
        (fun cc => cc.1.is_reverted) (chainGroupRows df dfp n ch)
  · intro n q
    unfold countOf
    have hsplit := length_filter_split (fun c : EnrichedClaim => c.is_reverted)
      (df.filter (fun c => c.ndc = n ∧ c.quantity = q))
    rw [hsplit, List.filter_filter, List.filter_filter,
      List.filter_filter, List.filter_filter]
    congr 2 <;> · apply List.filter_congr
                  intro x _
                  exact Bool.and_comm _ _

/-- Witness for the C10 theorem: on the two-claim group (one reverted, one
    not), `fills = 1 + 1` and both sums split accordingly. -/
theorem reverted_claims_still_count_witness :
    exMetricRow ∈ compute_npi_ndc_metrics [exEnrichedA, exEnrichedB] ∧
    exMetricRow.fills =
      ((groupClaims [exEnrichedA, exEnrichedB] exMetricRow.npi
          exMetricRow.ndc).filter (fun c => c.is_reverted)).length +
      ((groupClaims [exEnrichedA, exEnrichedB] exMetricRow.npi
          exMetricRow.ndc).filter (fun c => !c.is_reverted)).length ∧
    chainGroupQuantitySum [exEnrichedA, exEnrichedB] [exPharmacyA] "d1"
        (("A" : String) : WithBot String) =
      (((chainGroupRows [exEnrichedA, exEnrichedB] [exPharmacyA] "d1"
          (("A" : String) : WithBot String)).filter
          (fun cc => cc.1.is_reverted)).map (fun cc => cc.1.quantity)).sum +
      (((chainGroupRows [exEnrichedA, exEnrichedB] [exPharmacyA] "d1"
          (("A" : String) : WithBot String)).filter
          (fun cc => !cc.1.is_reverted)).map (fun cc => cc.1.quantity)).sum ∧
    countOf [exEnrichedA, exEnrichedB] "d1" 2 =
      countOf ([exEnrichedA, exEnrichedB].filter (fun c => c.is_reverted)) "d1" 2 +
      countOf ([exEnrichedA, exEnrichedB].filter (fun c => !c.is_reverted)) "d1" 2 :=
  ⟨by with_unfolding_all decide,
   ((reverted_claims_still_count [exEnrichedA, exEnrichedB] [exPharmacyA]).1
     exMetricRow (by with_unfolding_all decide)).1,
   ((reverted_claims_still_count [exEnrichedA, exEnrichedB] [exPharmacyA]).2.1
     "d1" (("A" : String) : WithBot String)).1,
   (reverted_claims_still_count [exEnrichedA, exEnrichedB] [exPharmacyA]).2.2
     "d1" 2⟩

/-! ## C9: determinism of the pipeline

polars enumerates the groups of an unordered `group_by` in an unspecified
order; the pipeline is deterministic because every report is finally sorted
by a key that is duplicate-free across its rows.  The theorems below make
this precise: starting any aggregation from an arbitrary permutation of its
grouped intermediate yields the same report. -/

/-- Pushing a map through `groupBy` (definitional reshaping). -/
theorem groupBy_map_key_form {α κ β : Type} [DecidableEq κ] (key : α → κ)
    (l : List α) (F : κ × List α → β) :
    (groupBy key l).map F =
      (dedupByKey id (l.map key)).map
        (fun k => F (k, l.filter (fun a => key a = k))) := by
  unfold groupBy
  rw [List.map_map]
  rfl

/-- The metrics report does not depend on the enumeration order of the
    `(npi, ndc)` groups. -/
theorem metricsFromGroups_perm (df : List EnrichedClaim)
    (gs : List ((String × String) × List EnrichedClaim))
    (h : gs.Perm (groupBy metricKey df)) :
    metricsFromGroups gs = compute_npi_ndc_metrics df := by
  unfold metricsFromGroups compute_npi_ndc_metrics
  apply sortByKey_eq_of_perm (h.map _)
  have hc : (((groupBy metricKey df).map
      (fun kg => metricOfGroup kg.1 kg.2)).map metricSortKey).Nodup := by
    rw [List.map_map]
    have he : (metricSortKey ∘ fun kg : (String × String) × List EnrichedClaim =>
        metricOfGroup kg.1 kg.2) = (fun kg => toLex kg.1) := rfl
    rw [he]
    have h3 := (groupBy_keys_nodup metricKey df).map toLex.injective
    rw [List.map_map] at h3
    exact h3
  exact ((h.map (fun kg => metricOfGroup kg.1 kg.2)).map metricSortKey).nodup_iff.mpr hc

/-- The chain report does not depend on the enumeration order of the
    `(ndc, chain)` groups. -/
theorem chainRecsFromAgg_perm (df : List EnrichedClaim)
    (dfp : List PharmacyRecord) (agg : List ChainAggRow)
    (h : agg.Perm (chainAgg df dfp)) :
    chainRecsFromAgg agg = compute_chain_recommendations df dfp := by
  unfold compute_chain_recommendations chainRecsFromAgg
  have hs : sortByKey chainAggSortKey agg =
      sortByKey chainAggSortKey (chainAgg df dfp) := by
    apply sortByKey_eq_of_perm h
    have hc : ((chainAgg df dfp).map chainAggSortKey).Nodup := by
      apply List.pairwise_map.mpr
      have h1 := List.pairwise_map.mp (chainAgg_keys_nodup df dfp)
      refine List.Pairwise.imp ?_ h1
      intro a b hne heq
      apply hne
      have h2 := toLex.injective heq
      have h3 : a.ndc = b.ndc := congrArg Prod.fst h2
      have h5 := toLex.injective (congrArg Prod.snd h2)
      have h6 : a.chain = b.chain := congrArg Prod.snd h5
      rw [h3, h6]
    exact (h.map chainAggSortKey).nodup_iff.mpr hc
  rw [hs]

/-- The row built for drug `k` of the quantity report from the marked rows
    `l` (the reshaped `map_groups`-then-`agg` body). -/
def qtyRowOf (l : List MarkedRow) (k : String) : QuantityInsight :=
  { ndc := k,
    most_prescribed_quantity :=
      sortByKey id ((l.filter (fun a => a.ndc = k)).filterMap
        (fun x => x.mode_qty)) }

/-- The quantity report does not depend on the enumeration order of either
    of its `group_by` steps. -/
theorem qtyInsightsFromMarked_perm (df : List EnrichedClaim)
    (marked : List MarkedRow)
    (h : marked.Perm (markModes (qtyCounts df))) :
    qtyInsightsFromMarked marked = compute_quantity_insights df := by
  unfold compute_quantity_insights qtyInsightsFromMarked
  have hcontent : ∀ n : String,
      sortByKey id ((marked.filter (fun x => x.ndc = n)).filterMap
        (fun x => x.mode_qty)) =
      sortByKey id (((markModes (qtyCounts df)).filter
        (fun x => x.ndc = n)).filterMap (fun x => x.mode_qty)) := by
    intro n
    exact sortByKey_eq_of_perm_of_antisymm ((h.filter _).filterMap _)
  rw [groupBy_map_key_form, groupBy_map_key_form]
  show sortByKey _ (((dedupByKey id (marked.map (fun x => x.ndc))).map
      (qtyRowOf marked)).filter _) =
    sortByKey _ (((dedupByKey id ((markModes (qtyCounts df)).map
      (fun x => x.ndc))).map (qtyRowOf (markModes (qtyCounts df)))).filter _)
  have hmapeq : (dedupByKey id (marked.map (fun x => x.ndc))).map
      (qtyRowOf marked) =
      (dedupByKey id (marked.map (fun x => x.ndc))).map
        (qtyRowOf (markModes (qtyCounts df))) := by
    apply List.map_congr_left
    intro k _
    unfold qtyRowOf
    rw [hcontent k]
  rw [hmapeq]
  have hkeys : (dedupByKey id (marked.map (fun x => x.ndc))).Perm
      (dedupByKey id ((markModes (qtyCounts df)).map (fun x => x.ndc))) := by
    apply (List.perm_ext_iff_of_nodup (nodup_dedupByKey_id _)
      (nodup_dedupByKey_id _)).mpr
    intro n
    rw [mem_dedupByKey_id, mem_dedupByKey_id]
    exact (h.map _).mem_iff
  apply sortByKey_eq_of_perm
    ((hkeys.map (qtyRowOf (markModes (qtyCounts df)))).filter _)
  have hnk : ((dedupByKey id (marked.map (fun x => x.ndc))).map
      (qtyRowOf (markModes (qtyCounts df)))).map (fun t => t.ndc) =
      dedupByKey id (marked.map (fun x => x.ndc)) := by
    rw [List.map_map]
    exact List.map_id _
  have hsub := (List.filter_sublist
    (p := fun t : QuantityInsight => 0 < t.most_prescribed_quantity.length)
    ((dedupByKey id (marked.map (fun x => x.ndc))).map
      (qtyRowOf (markModes (qtyCounts df))))).map (fun t => t.ndc)
  have hnd0 : (((dedupByKey id (marked.map (fun x => x.ndc))).map
      (qtyRowOf (markModes (qtyCounts df)))).map (fun t => t.ndc)).Nodup := by
    rw [hnk]
    exact nodup_dedupByKey_id _
  exact List.Nodup.sublist hsub hnd0

/-- C9: the full pipeline is deterministic.  Its only internal order
    nondeterminism is the group enumeration order of the three unordered
    `group_by` steps; for every permutation of each grouped intermediate the
    three reports are identical (row values, row order and within-row list
    order) to the canonical run. -/
theorem pipeline_deterministic (dfc : List ClaimRecord)
    (dfr : List RevertRecord) (dfp : List PharmacyRecord)
    (gs : List ((String × String) × List EnrichedClaim))
    (agg : List ChainAggRow) (marked : List MarkedRow)
    (hgs : gs.Perm (groupBy metricKey
      (mark_reverted_claims (filter_to_pharmacy_dataset dfc dfp) dfr)))
    (hagg : agg.Perm (chainAgg
      (mark_reverted_claims (filter_to_pharmacy_dataset dfc dfp) dfr) dfp))
    (hmarked : marked.Perm (markModes (qtyCounts
      (mark_reverted_claims (filter_to_pharmacy_dataset dfc dfp) dfr)))) :
    (metricsFromGroups gs, chainRecsFromAgg agg, qtyInsightsFromMarked marked) =
      run_pharmacy_analytics dfc dfr dfp := by
  have h1 := metricsFromGroups_perm
    (mark_reverted_claims (filter_to_pharmacy_dataset dfc dfp) dfr) gs hgs
  have h2 := chainRecsFromAgg_perm
    (mark_reverted_claims (filter_to_pharmacy_dataset dfc dfp) dfr) dfp agg hagg
  have h3 := qtyInsightsFromMarked_perm
    (mark_reverted_claims (filter_to_pharmacy_dataset dfc dfp) dfr) marked hmarked
  rw [h1, h2, h3]
  rfl

/-- A second claim (`c2`, drug `d2`) for the determinism witness. -/
def exClaimB : ClaimRecord :=
  { id := "c2", npi := "n1", ndc := "d2", price := 4, quantity := 1,
    timestamp := "t2" }

/-- The enriched claims of the determinism witness input. -/
def exDetEnriched : List EnrichedClaim :=
  mark_reverted_claims
    (filter_to_pharmacy_dataset [exClaimA, exClaimB] [exPharmacyA]) [exRevert1]

/-- Witness for the C9 theorem: feeding each aggregation the REVERSED group
    lists of a two-drug input reproduces the canonical pipeline output. -/
theorem pipeline_deterministic_witness :
    (groupBy metricKey exDetEnriched).reverse.Perm
      (groupBy metricKey exDetEnriched) ∧
    (chainAgg exDetEnriched [exPharmacyA]).reverse.Perm
      (chainAgg exDetEnriched [exPharmacyA]) ∧
    (markModes (qtyCounts exDetEnriched)).reverse.Perm
      (markModes (qtyCounts exDetEnriched)) ∧
    (metricsFromGroups (groupBy metricKey exDetEnriched).reverse,
     chainRecsFromAgg (chainAgg exDetEnriched [exPharmacyA]).reverse,
     qtyInsightsFromMarked (markModes (qtyCounts exDetEnriched)).reverse) =
      run_pharmacy_analytics [exClaimA, exClaimB] [exRevert1] [exPharmacyA] :=
  ⟨by with_unfolding_all decide,
   by with_unfolding_all decide,
   by with_unfolding_all decide,
   pipeline_deterministic [exClaimA, exClaimB] [exRevert1] [exPharmacyA]
     (groupBy metricKey exDetEnriched).reverse
     (chainAgg exDetEnriched [exPharmacyA]).reverse
     (markModes (qtyCounts exDetEnriched)).reverse
     (by with_unfolding_all decide)
     (by with_unfolding_all decide)
     (by with_unfolding_all decide)⟩

end HippoData
